import Mathlib

/-!
Verification of the filo adaptive file-classification engine against its specification.

The Go sources are shallowly embedded below:
* `internal/embedding` (hash embedder, cosine similarity),
* `internal/storage` (rules / history / vectors / op-log / model-stats tables),
* `internal/memory` (three-tier query, learning),
* `internal/classifier` (classify pipeline, LLM batch handling),
* `cmd/undo.go` (batch undo) and `cmd/root.go` (exit-code behaviour).

Conventions used throughout:
* Go `float64` is embedded as `ℚ` where the code only does field arithmetic and as `ℝ`
  where square roots occur (vector normalisation and cosine similarity).
* SQL tables are lists of row structures.  `classification_history` and `vectors` are
  kept newest-first, so `ORDER BY created_at DESC` is the identity and an `INSERT` is a
  `cons`; `operation_logs` is kept in insertion (id) order, so `ORDER BY id ASC` is the
  identity and an `INSERT` is an append.
* Go byte lengths (`len(s)`) are `String.utf8ByteSize`; byte offsets of `range` over a
  string advance by `Char.utf8Size`.
-/

namespace Filo

/-! ### Generic list and string helpers -/

/-- Bool test that `needle` occurs as a contiguous infix of `hay`
(SQL `LIKE '%needle%'` on wildcard-free needles). -/
def containsSub (needle : List Char) : List Char → Bool
  | [] => needle.isEmpty
  | c :: cs => needle.isPrefixOf (c :: cs) || containsSub needle cs

/-- Character classes of the tokenising regular expressions: Han ideograph (0),
ASCII letter (1), ASCII digit (2); `none` for separator characters. -/
def charCat (c : Char) : Option ℕ :=
  if (0x4E00 ≤ c.toNat ∧ c.toNat ≤ 0x9FFF) ∨ (0x3400 ≤ c.toNat ∧ c.toNat ≤ 0x4DBF) ∨
     (0xF900 ≤ c.toNat ∧ c.toNat ≤ 0xFAFF) ∨ (0x20000 ≤ c.toNat ∧ c.toNat ≤ 0x2A6DF) ∨
     (0x2F800 ≤ c.toNat ∧ c.toNat ≤ 0x2FA1F) then some 0
  else if ('a' ≤ c ∧ c ≤ 'z') ∨ ('A' ≤ c ∧ c ≤ 'Z') then some 1
  else if '0' ≤ c ∧ c ≤ '9' then some 2
  else none

/-- One-pass grouping of a character list into maximal runs of a single class,
accumulating the current run in reverse.  This is `FindAllString` for the
alternations `[Han]+ | [A-Za-z]+ | [0-9]+` used by the Go tokeniser regexes. -/
def runsAcc (cur : Option (ℕ × List Char)) : List Char → List (ℕ × List Char)
  | [] =>
    match cur with
    | some (k, acc) => [(k, acc.reverse)]
    | none => []
  | c :: cs =>
    match charCat c, cur with
    | none, none => runsAcc none cs
    | none, some (k, acc) => (k, acc.reverse) :: runsAcc none cs
    | some kc, none => runsAcc (some (kc, [c])) cs
    | some kc, some (k, acc) =>
      if kc = k then runsAcc (some (k, c :: acc)) cs
      else (k, acc.reverse) :: runsAcc (some (kc, [c])) cs

/-- Maximal Han/letter/digit runs of a character list, with their class. -/
def runsOf (l : List Char) : List (ℕ × List Char) := runsAcc none l

/-- `filepath.Ext`: the suffix of the name starting at its final dot, `""` if none. -/
def extOf (s : String) : String :=
  let rev := s.data.reverse
  let pre := rev.takeWhile (· ≠ '.')
  if pre.length = rev.length then "" else String.mk ('.' :: pre.reverse)

/-- Per-character lowercasing (`strings.ToLower`; the claims below do not depend on
the case table, so the ASCII mapping of `Char.toLower` stands in for the Unicode
one). -/
def strToLower (s : String) : String := String.mk (s.data.map Char.toLower)

/-- `strings.TrimSuffix(name, filepath.Ext(name))`: drop the extension. -/
def stripExt (s : String) : String := s.dropRight (extOf s).length

/-! ### Decimal rendering of a natural number (Go `fmt` `%d`), with injectivity -/

/-- The decimal digit character of `d < 10`. -/
def decChar (d : ℕ) : Char :=
  match d with
  | 0 => '0' | 1 => '1' | 2 => '2' | 3 => '3' | 4 => '4'
  | 5 => '5' | 6 => '6' | 7 => '7' | 8 => '8' | _ => '9'

/-- Numeric value of a decimal digit character. -/
def decVal (c : Char) : ℕ :=
  match c with
  | '0' => 0 | '1' => 1 | '2' => 2 | '3' => 3 | '4' => 4
  | '5' => 5 | '6' => 6 | '7' => 7 | '8' => 8 | _ => 9

/-- Little-endian decimal digits of a natural number. -/
def decDigitsLE (n : ℕ) : List Char :=
  if h : n < 10 then [decChar n]
  else decChar (n % 10) :: decDigitsLE (n / 10)
  decreasing_by exact Nat.div_lt_self (by omega) (by omega)

/-- Decimal string of a natural number. -/
def natStr (n : ℕ) : String := String.mk (decDigitsLE n).reverse

/-- Value of a little-endian digit list. -/
def valLE : List Char → ℕ
  | [] => 0
  | c :: cs => decVal c + 10 * valLE cs

theorem decVal_decChar {d : ℕ} (h : d < 10) : decVal (decChar d) = d := by
  interval_cases d <;> rfl

theorem valLE_decDigitsLE (n : ℕ) : valLE (decDigitsLE n) = n := by
  induction n using Nat.strong_induction_on with
  | _ n ih =>
    rw [decDigitsLE]
    by_cases h : n < 10
    · simp [h, valLE, decVal_decChar h]
    · have hd : n / 10 < n := Nat.div_lt_self (by omega) (by omega)
      simp only [h, dite_false, valLE, ih (n / 10) hd, decVal_decChar (Nat.mod_lt n (by omega))]
      omega

theorem natStr_injective : Function.Injective natStr := by
  intro a b hab
  have h1 : (decDigitsLE a).reverse = (decDigitsLE b).reverse := by
    have := congrArg String.data hab
    simpa [natStr] using this
  have h2 : decDigitsLE a = decDigitsLE b := by
    have := congrArg List.reverse h1
    simpa using this
  have := congrArg valLE h2
  simpa [valLE_decDigitsLE] using this

/-! ### UTF-8 encoding and the FNV-1a 64-bit hash (`hash/fnv`) -/

/-- UTF-8 bytes of a single character (Go `[]byte(string(char))`). -/
def charUTF8 (c : Char) : List ℕ :=
  let n := c.toNat
  if n < 0x80 then [n]
  else if n < 0x800 then [0xC0 + n / 0x40, 0x80 + n % 0x40]
  else if n < 0x10000 then [0xE0 + n / 0x1000, 0x80 + (n / 0x40) % 0x40, 0x80 + n % 0x40]
  else [0xF0 + n / 0x40000, 0x80 + (n / 0x1000) % 0x40, 0x80 + (n / 0x40) % 0x40, 0x80 + n % 0x40]

/-- UTF-8 bytes of a string (Go `[]byte(s)`). -/
def strUTF8 (s : String) : List ℕ := s.data.flatMap charUTF8

/-- FNV-1a 64-bit hash of a byte sequence: starting from the offset basis, XOR each
byte in and multiply by the FNV prime, wrapping at 2^64. -/
def fnv1a (bytes : List ℕ) : ℕ :=
  bytes.foldl (fun h b => ((h ^^^ b) * 1099511628211) % 2 ^ 64) 14695981603370758027

/-! ### `LocalEmbedder` (`internal/embedding`)

The raw accumulation of the three feature passes is exact rational arithmetic; the
final L2 normalisation and the cosine enter `ℝ` because of the square roots. -/

/-- Vector dimension of the local embedder. -/
def dimension : ℕ := 256

/-- `vec[idx] += w` on a list-represented vector. -/
def bump (v : List ℚ) (idx : ℕ) (w : ℚ) : List ℚ := v.set idx (v.getD idx 0 + w)

/-- Feature pass 1: per character at byte offset `ofs`, add `1/(ofs+1)` at the hashed
index (Go `for i, char := range text` yields byte offsets). -/
def charPass : List Char → ℕ → List ℚ → List ℚ
  | [], _, v => v
  | c :: cs, ofs, v =>
    charPass cs (ofs + c.utf8Size) (bump v (fnv1a (charUTF8 c) % dimension) (1 / (ofs + 1 : ℚ)))

/-- Tokens of the wide regex `[Han]+ | [A-Za-z]+ | [0-9]+` over a string. -/
def tokensOf (s : String) : List String := (runsOf s.data).map (fun p => String.mk p.2)

/-- Feature pass 2: per token at ordinal `i`, add `2/(i+1)` at the hashed index. -/
def wordPass : List String → ℕ → List ℚ → List ℚ
  | [], _, v => v
  | w :: ws, i, v => wordPass ws (i + 1) (bump v (fnv1a (strUTF8 w) % dimension) (2 / (i + 1 : ℚ)))

/-- All windows of three consecutive bytes. -/
def windows3 : List ℕ → List (List ℕ)
  | a :: b :: c :: rest => [a, b, c] :: windows3 (b :: c :: rest)
  | _ => []

/-- Feature pass 3: per byte-wise 3-gram, add the fixed weight `0.5`. -/
def ngramPass (grams : List (List ℕ)) (v : List ℚ) : List ℚ :=
  grams.foldl (fun v g => bump v (fnv1a g % dimension) (1 / 2)) v

/-- The unnormalised embedding vector: lowercase the text, then run the three passes
over a zero vector of length 256. -/
def rawEmbed (s : String) : List ℚ :=
  let t := strToLower s
  ngramPass (windows3 (strUTF8 t)) (wordPass (tokensOf t) 0 (charPass t.data 0 (List.replicate dimension 0)))

/-- Sum of squares of a real vector (the `n1`/`n2` accumulators of `Similarity`). -/
def sumSq : List ℝ → ℝ
  | [] => 0
  | x :: v => x * x + sumSq v

/-- Dot product accumulator of `Similarity` (lengths are equal when it is used). -/
def dotL : List ℝ → List ℝ → ℝ
  | a :: v1, b :: v2 => a * b + dotL v1 v2
  | _, _ => 0

/-- `normalize`: divide by the L2 norm, returning a zero vector unchanged. -/
noncomputable def normalize (v : List ℝ) : List ℝ :=
  let norm := Real.sqrt (sumSq v)
  if norm = 0 then v else v.map (· / norm)

/-- `LocalEmbedder.Embed`: the normalised feature vector. -/
noncomputable def embed (s : String) : List ℝ :=
  normalize ((rawEmbed s).map (fun q : ℚ => (q : ℝ)))

/-- `LocalEmbedder.Similarity`: cosine similarity, `0` on length mismatch or a zero
norm. -/
noncomputable def similarity (v1 v2 : List ℝ) : ℝ :=
  if v1.length ≠ v2.length then 0
  else if sumSq v1 = 0 ∨ sumSq v2 = 0 then 0
  else dotL v1 v2 / (Real.sqrt (sumSq v1) * Real.sqrt (sumSq v2))

/-! ### Bounds on the embedder -/

theorem dotL_nil_left (v2 : List ℝ) : dotL [] v2 = 0 := by cases v2 <;> rfl

theorem dotL_nil_right (v1 : List ℝ) : dotL v1 [] = 0 := by cases v1 <;> rfl

theorem sumSq_nonneg (v : List ℝ) : 0 ≤ sumSq v := by
  induction v with
  | nil => simp [sumSq]
  | cons x v ih => simp only [sumSq]; nlinarith [sq_nonneg x]

/-- Cauchy–Schwarz for the loop accumulators of `Similarity`. -/
theorem dotL_sq_le (v1 : List ℝ) : ∀ v2, (dotL v1 v2) ^ 2 ≤ sumSq v1 * sumSq v2 := by
  induction v1 with
  | nil => intro v2; rw [dotL_nil_left]; simp [sumSq]
  | cons a v1 ih =>
    intro v2
    cases v2 with
    | nil => rw [dotL_nil_right]; simp [sumSq]
    | cons b v2 =>
      simp only [dotL, sumSq]
      have h := ih v2
      have h1 := sumSq_nonneg v1
      have h2 := sumSq_nonneg v2
      set s1 := sumSq v1
      set s2 := sumSq v2
      set d := dotL v1 v2
      have k1 : 0 ≤ (a ^ 2 * s2 - b ^ 2 * s1) ^ 2 + 4 * (a * b) ^ 2 * (s1 * s2 - d ^ 2) := by
        have := mul_nonneg (sq_nonneg (a * b)) (by linarith : (0 : ℝ) ≤ s1 * s2 - d ^ 2)
        nlinarith [sq_nonneg (a ^ 2 * s2 - b ^ 2 * s1)]
      have k2 : (2 * a * b * d) ^ 2 ≤ (a ^ 2 * s2 + b ^ 2 * s1) ^ 2 := by nlinarith [k1]
      have hx : 0 ≤ a ^ 2 * s2 + b ^ 2 * s1 :=
        add_nonneg (mul_nonneg (sq_nonneg a) h2) (mul_nonneg (sq_nonneg b) h1)
      have k3 : 2 * a * b * d ≤ a ^ 2 * s2 + b ^ 2 * s1 := by nlinarith [k2, hx]
      nlinarith [h, k3]

theorem dotL_nonneg (v1 : List ℝ) :
    ∀ v2, (∀ x ∈ v1, 0 ≤ x) → (∀ x ∈ v2, 0 ≤ x) → 0 ≤ dotL v1 v2 := by
  induction v1 with
  | nil => intro v2 _ _; rw [dotL_nil_left]
  | cons a v1 ih =>
    intro v2 h1 h2
    cases v2 with
    | nil => rw [dotL_nil_right]
    | cons b v2 =>
      simp only [dotL]
      have ha : 0 ≤ a := h1 a (by simp)
      have hb : 0 ≤ b := h2 b (by simp)
      have := ih v2 (fun x hx => h1 x (by simp [hx])) (fun x hx => h2 x (by simp [hx]))
      nlinarith

theorem similarity_le_one (v1 v2 : List ℝ) : similarity v1 v2 ≤ 1 := by
  rw [similarity]
  by_cases hl : v1.length ≠ v2.length
  · rw [if_pos hl]; norm_num
  · rw [if_neg hl]
    by_cases hz : sumSq v1 = 0 ∨ sumSq v2 = 0
    · rw [if_pos hz]; norm_num
    · rw [if_neg hz]
      push_neg at hz
      have h1 : 0 < sumSq v1 := lt_of_le_of_ne (sumSq_nonneg v1) (Ne.symm hz.1)
      have h2 : 0 < sumSq v2 := lt_of_le_of_ne (sumSq_nonneg v2) (Ne.symm hz.2)
      have hs1 : 0 < Real.sqrt (sumSq v1) := Real.sqrt_pos.mpr h1
      have hs2 : 0 < Real.sqrt (sumSq v2) := Real.sqrt_pos.mpr h2
      rw [div_le_one (mul_pos hs1 hs2)]
      calc dotL v1 v2 ≤ |dotL v1 v2| := le_abs_self _
        _ = Real.sqrt ((dotL v1 v2) ^ 2) := (Real.sqrt_sq_eq_abs _).symm
        _ ≤ Real.sqrt (sumSq v1 * sumSq v2) := Real.sqrt_le_sqrt (dotL_sq_le v1 v2)
        _ = Real.sqrt (sumSq v1) * Real.sqrt (sumSq v2) := Real.sqrt_mul (le_of_lt h1) _

theorem similarity_nonneg_of_nonneg {v1 v2 : List ℝ} (h1 : ∀ x ∈ v1, 0 ≤ x)
    (h2 : ∀ x ∈ v2, 0 ≤ x) : 0 ≤ similarity v1 v2 := by
  rw [similarity]
  by_cases hl : v1.length ≠ v2.length
  · rw [if_pos hl]
  · rw [if_neg hl]
    by_cases hz : sumSq v1 = 0 ∨ sumSq v2 = 0
    · rw [if_pos hz]
    · rw [if_neg hz]
      exact div_nonneg (dotL_nonneg v1 v2 h1 h2)
        (mul_nonneg (Real.sqrt_nonneg _) (Real.sqrt_nonneg _))

theorem getD_nonneg {v : List ℝ} (h : ∀ x ∈ v, 0 ≤ x) (i : ℕ) : 0 ≤ v.getD i 0 := by
  rcases Nat.lt_or_ge i v.length with hi | hi
  · rw [List.getD_eq_getElem v 0 hi]
    exact h _ (List.getElem_mem hi)
  · rw [List.getD_eq_default v 0 hi]

theorem getDQ_nonneg {v : List ℚ} (h : ∀ x ∈ v, 0 ≤ x) (i : ℕ) : 0 ≤ v.getD i 0 := by
  rcases Nat.lt_or_ge i v.length with hi | hi
  · rw [List.getD_eq_getElem v 0 hi]
    exact h _ (List.getElem_mem hi)
  · rw [List.getD_eq_default v 0 hi]

theorem bump_nonneg {v : List ℚ} {i : ℕ} {w : ℚ} (hv : ∀ x ∈ v, 0 ≤ x) (hw : 0 ≤ w) :
    ∀ x ∈ bump v i w, 0 ≤ x := by
  intro x hx
  rcases List.mem_or_eq_of_mem_set hx with h | h
  · exact hv x h
  · subst h
    have := getDQ_nonneg hv i
    linarith

theorem charPass_nonneg (cs : List Char) :
    ∀ (ofs : ℕ) (v : List ℚ), (∀ x ∈ v, 0 ≤ x) → ∀ x ∈ charPass cs ofs v, 0 ≤ x := by
  induction cs with
  | nil => intro ofs v hv; exact hv
  | cons c cs ih =>
    intro ofs v hv
    exact ih _ _ (bump_nonneg hv (by positivity))

theorem wordPass_nonneg (ws : List String) :
    ∀ (i : ℕ) (v : List ℚ), (∀ x ∈ v, 0 ≤ x) → ∀ x ∈ wordPass ws i v, 0 ≤ x := by
  induction ws with
  | nil => intro i v hv; exact hv
  | cons w ws ih =>
    intro i v hv
    exact ih _ _ (bump_nonneg hv (by positivity))

theorem ngramPass_nonneg (grams : List (List ℕ)) :
    ∀ (v : List ℚ), (∀ x ∈ v, 0 ≤ x) → ∀ x ∈ ngramPass grams v, 0 ≤ x := by
  induction grams with
  | nil => intro v hv; exact hv
  | cons g grams ih =>
    intro v hv
    exact ih _ (bump_nonneg hv (by norm_num))

theorem rawEmbed_nonneg (s : String) : ∀ x ∈ rawEmbed s, 0 ≤ x := by
  refine ngramPass_nonneg _ _ (wordPass_nonneg _ _ _ (charPass_nonneg _ _ _ ?_))
  intro x hx
  rw [List.eq_of_mem_replicate hx]

theorem embed_nonneg (s : String) : ∀ x ∈ embed s, 0 ≤ x := by
  intro x hx
  have hcast : ∀ y ∈ (rawEmbed s).map (fun q : ℚ => (q : ℝ)), 0 ≤ y := by
    intro y hy
    rcases List.mem_map.mp hy with ⟨q, hq, rfl⟩
    exact_mod_cast rawEmbed_nonneg s q hq
  rw [embed, normalize] at hx
  by_cases hz : Real.sqrt (sumSq ((rawEmbed s).map (fun q : ℚ => (q : ℝ)))) = 0
  · rw [if_pos hz] at hx
    exact hcast x hx
  · rw [if_neg hz] at hx
    rcases List.mem_map.mp hx with ⟨y, hy, rfl⟩
    exact div_nonneg (hcast y hy) (Real.sqrt_nonneg _)

/-- C10: the local embedder produces vectors with non-negative components, so the
cosine of two embeddings lies in `[0, 1]`; `Similarity` is `0` on a length mismatch
and when either accumulated norm is zero. -/
theorem local_embedder_similarity_in_unit_interval :
    (∀ a b : String,
        0 ≤ similarity (embed a) (embed b) ∧ similarity (embed a) (embed b) ≤ 1) ∧
    (∀ (a : String) (i : ℕ), 0 ≤ (embed a).getD i 0) ∧
    (∀ v1 v2 : List ℝ, v1.length ≠ v2.length → similarity v1 v2 = 0) ∧
    (∀ v1 v2 : List ℝ, sumSq v1 = 0 ∨ sumSq v2 = 0 → similarity v1 v2 = 0) := by
  refine ⟨fun a b => ⟨similarity_nonneg_of_nonneg (embed_nonneg a) (embed_nonneg b),
    similarity_le_one _ _⟩, fun a i => getD_nonneg (embed_nonneg a) i, ?_, ?_⟩
  · intro v1 v2 hl
    rw [similarity, if_pos hl]
  · intro v1 v2 hz
    rw [similarity]
    by_cases hl : v1.length ≠ v2.length
    · rw [if_pos hl]
    · rw [if_neg hl, if_pos hz]

/-- Witness for C10 at concrete vectors: a length mismatch and a zero-norm pair both
yield similarity `0`. -/
theorem local_embedder_similarity_witness :
    (([(1 : ℝ)]).length ≠ ([(1 : ℝ), 0]).length ∧ similarity [(1 : ℝ)] [(1 : ℝ), 0] = 0) ∧
    (sumSq [(0 : ℝ), 0] = 0 ∧ similarity [(0 : ℝ), 0] [(1 : ℝ), 1] = 0) :=
  ⟨⟨by simp, local_embedder_similarity_in_unit_interval.2.2.1 _ _ (by simp)⟩,
   ⟨by norm_num [sumSq], local_embedder_similarity_in_unit_interval.2.2.2 _ _
      (Or.inl (by norm_num [sumSq]))⟩⟩

/-! ### `learned_rules` table and `AddOrUpdateRule` (`internal/storage/database.go`)

`hit_count` is embedded as `ℕ`: the column is only ever written as `1` on insert and
incremented on update. -/

/-- A row of the `learned_rules` table. -/
structure Rule where
  pattern : String
  patternType : String
  category : String
  subcategory : String
  priority : ℤ
  hitCount : ℕ
  deriving DecidableEq, Repr

/-- The `WHERE pattern = ? AND pattern_type = ? AND category = ?` predicate. -/
def ruleKeyIs (p ty c : String) (r : Rule) : Bool :=
  decide (r.pattern = p ∧ r.patternType = ty ∧ r.category = c)

/-- The row update of the upsert: `hit_count += 1`, `priority = MAX(priority, new)`. -/
def ruleUpd (priority : ℤ) (r : Rule) : Rule :=
  { r with hitCount := r.hitCount + 1, priority := max r.priority priority }

/-- `AddOrUpdateRule`: lowercase the pattern, run the `UPDATE` over all rows matching
the `(pattern, pattern_type, category)` key; if no row was affected, `INSERT` a fresh
row with `hit_count = 1`. -/
def addOrUpdateRule (t : List Rule) (pattern patternType category subcategory : String)
    (priority : ℤ) : List Rule :=
  let pat := strToLower pattern
  let affected := t.countP (ruleKeyIs pat patternType category)
  let updated := t.map (fun r => if ruleKeyIs pat patternType category r then ruleUpd priority r else r)
  if affected = 0 then updated ++ [⟨pat, patternType, category, subcategory, priority, 1⟩]
  else updated

theorem ruleKeyIs_ruleUpd (p ty c : String) (π : ℤ) (r : Rule) :
    ruleKeyIs p ty c (ruleUpd π r) = ruleKeyIs p ty c r := rfl

theorem upd_map_eq_self {p ty c : String} {π : ℤ} {t : List Rule}
    (h : t.countP (ruleKeyIs p ty c) = 0) :
    t.map (fun r => if ruleKeyIs p ty c r then ruleUpd π r else r) = t := by
  have hall := List.countP_eq_zero.mp h
  calc t.map (fun r => if ruleKeyIs p ty c r then ruleUpd π r else r)
      = t.map id := List.map_congr_left (fun r hr => by simp [hall r hr])
    _ = t := List.map_id t

theorem countP_upd_map (p ty c : String) (π : ℤ) (t : List Rule) :
    (t.map (fun r => if ruleKeyIs p ty c r then ruleUpd π r else r)).countP
      (ruleKeyIs p ty c) = t.countP (ruleKeyIs p ty c) := by
  rw [List.countP_map]
  refine List.countP_congr (fun r _ => ?_)
  by_cases h : ruleKeyIs p ty c r <;> simp [h, Function.comp, ruleKeyIs_ruleUpd]

/-- C7: `add_or_update_rule` upserts on `(pattern, pattern_type, category)`.  On a
miss it inserts a single `hit_count = 1` row; on a hit every row with the key gets
`hit_count + 1` and `priority ← max`; two consecutive calls with the same arguments
starting from a key-free store leave exactly one row with `hit_count = 2` and the
maximum of the two priorities. -/
theorem add_or_update_rule_upsert (t : List Rule) (p ty c s : String) (π₁ π₂ : ℤ) :
    (t.countP (ruleKeyIs (strToLower p) ty c) = 0 →
      addOrUpdateRule t p ty c s π₁ = t ++ [⟨strToLower p, ty, c, s, π₁, 1⟩]) ∧
    (0 < t.countP (ruleKeyIs (strToLower p) ty c) →
      addOrUpdateRule t p ty c s π₁ =
        t.map (fun r => if ruleKeyIs (strToLower p) ty c r then ruleUpd π₁ r else r) ∧
      (addOrUpdateRule t p ty c s π₁).length = t.length) ∧
    (t.countP (ruleKeyIs (strToLower p) ty c) = 0 →
      (addOrUpdateRule (addOrUpdateRule t p ty c s π₁) p ty c s π₂).countP
          (ruleKeyIs (strToLower p) ty c) = 1 ∧
      (addOrUpdateRule (addOrUpdateRule t p ty c s π₁) p ty c s π₂).filter
          (ruleKeyIs (strToLower p) ty c) = [⟨strToLower p, ty, c, s, max π₁ π₂, 2⟩]) := by
  refine ⟨?_, ?_, ?_⟩
  · intro h0
    rw [addOrUpdateRule]
    simp only [h0, if_pos rfl, upd_map_eq_self h0, if_true]
  · intro hpos
    have hne : t.countP (ruleKeyIs (strToLower p) ty c) ≠ 0 := Nat.pos_iff_ne_zero.mp hpos
    constructor
    · rw [addOrUpdateRule]
      simp only [hne, if_neg, ite_false]
    · rw [addOrUpdateRule]
      simp only [hne, ite_false, List.length_map]
  · intro h0
    have h1 : addOrUpdateRule t p ty c s π₁ = t ++ [⟨strToLower p, ty, c, s, π₁, 1⟩] := by
      rw [addOrUpdateRule]
      simp only [h0, if_pos rfl, upd_map_eq_self h0, if_true]
    have hkey : ruleKeyIs (strToLower p) ty c ⟨strToLower p, ty, c, s, π₁, 1⟩ = true := by
      simp [ruleKeyIs]
    have hcnt1 : (t ++ [(⟨strToLower p, ty, c, s, π₁, 1⟩ : Rule)]).countP
        (ruleKeyIs (strToLower p) ty c) = 1 := by
      rw [List.countP_append, h0]
      simp [hkey]
    have hne1 : (t ++ [(⟨strToLower p, ty, c, s, π₁, 1⟩ : Rule)]).countP
        (ruleKeyIs (strToLower p) ty c) ≠ 0 := by rw [hcnt1]; omega
    have h2 : addOrUpdateRule (addOrUpdateRule t p ty c s π₁) p ty c s π₂ =
        (t ++ [(⟨strToLower p, ty, c, s, π₁, 1⟩ : Rule)]).map
          (fun r => if ruleKeyIs (strToLower p) ty c r then ruleUpd π₂ r else r) := by
      rw [h1, addOrUpdateRule]
      simp only [hne1, ite_false]
    rw [h2]
    constructor
    · rw [countP_upd_map, hcnt1]
    · rw [List.map_append, List.filter_append]
      have hfilter0 : (t.map (fun r => if ruleKeyIs (strToLower p) ty c r then ruleUpd π₂ r
          else r)).filter (ruleKeyIs (strToLower p) ty c) = [] := by
        refine List.filter_eq_nil_iff.mpr (fun r hr => ?_)
        rcases List.mem_map.mp hr with ⟨r₀, hr₀, rfl⟩
        have := List.countP_eq_zero.mp h0 r₀ hr₀
        by_cases hk : ruleKeyIs (strToLower p) ty c r₀ <;>
          simp_all [ruleKeyIs_ruleUpd]
      rw [hfilter0]
      have hmapnew : ([(⟨strToLower p, ty, c, s, π₁, 1⟩ : Rule)]).map
          (fun r => if ruleKeyIs (strToLower p) ty c r then ruleUpd π₂ r else r) =
          [⟨strToLower p, ty, c, s, max π₁ π₂, 2⟩] := by
        simp [hkey, ruleUpd]
      rw [hmapnew]
      have hkey2 : ruleKeyIs (strToLower p) ty c ⟨strToLower p, ty, c, s, max π₁ π₂, 2⟩ = true := by
        simp [ruleKeyIs]
      simp [hkey2]

/-- Witness for C7: concretely, two upserts of the same keyword rule into an empty
store leave one row with `hit_count = 2` and the larger priority. -/
theorem add_or_update_rule_upsert_witness :
    ([] : List Rule).countP (ruleKeyIs (strToLower "inv") "keyword" "Docs") = 0 ∧
    (addOrUpdateRule (addOrUpdateRule [] "Inv" "keyword" "Docs" "Fin" 5) "Inv" "keyword"
        "Docs" "Fin" 10).filter (ruleKeyIs (strToLower "inv") "keyword" "Docs") =
      [⟨"inv", "keyword", "Docs", "Fin", 10, 2⟩] := by
  have h := (add_or_update_rule_upsert [] "Inv" "keyword" "Docs" "Fin" 5 10).2.2
  constructor
  · decide
  · have h2 := (h (by decide)).2
    have hlow : (strToLower "Inv" : String) = "inv" := by decide
    have hmax : (max (5 : ℤ) 10) = 10 := by decide
    rw [hlow, hmax] at h2
    exact h2

/-! ### `model_stats` table (`internal/storage/database.go`) -/

/-- A row of the `model_stats` table. -/
structure StatsRow where
  modelName : String
  batchID : String
  fileCount : ℕ
  totalTimeMs : ℤ
  avgTimePerFileMs : ℚ
  avgConfidence : ℚ
  confirmedCount : ℕ
  correctedCount : ℕ
  accuracyRate : ℚ
  createdAt : ℕ
  deriving DecidableEq, Repr

/-- `AddModelStats`: insert a row with `avg_time_per_file_ms = total/count` (0 when
`count = 0`) and zeroed feedback counters. -/
def addModelStats (t : List StatsRow) (modelName batchID : String) (fileCount : ℕ)
    (totalTimeMs : ℤ) (avgConfidence : ℚ) (createdAt : ℕ) : List StatsRow :=
  let avgTimePerFile : ℚ := if 0 < fileCount then (totalTimeMs : ℚ) / (fileCount : ℚ) else 0
  t ++ [⟨modelName, batchID, fileCount, totalTimeMs, avgTimePerFile, avgConfidence, 0, 0, 0,
    createdAt⟩]

/-- `UpdateModelAccuracy`: add the deltas to the counters of every row of the batch
and store an accuracy rate computed from the deltas alone. -/
def updateModelAccuracy (t : List StatsRow) (batchID : String) (confirmed corrected : ℕ) :
    List StatsRow :=
  let total := confirmed + corrected
  let accuracyRate : ℚ := if 0 < total then (confirmed : ℚ) / (total : ℚ) else 0
  t.map (fun r =>
    if r.batchID = batchID then
      { r with confirmedCount := r.confirmedCount + confirmed,
               correctedCount := r.correctedCount + corrected,
               accuracyRate := accuracyRate }
    else r)

/-! ### The in-place exchange sort used by `GetModelSummaries` and
`GetCandidateCategories`

`for i { for j > i { if key(a[j]) > key(a[i]) { swap } } }` is modelled by repeated
passes: one pass carries the current element of slot `i` through the tail, swapping
whenever a strictly larger key is found, and returns the final champion together with
the altered tail. -/

/-- One inner-loop pass with current slot value `cur`. -/
def exPass {α β : Type} [LinearOrder β] (k : α → β) (cur : α) : List α → α × List α
  | [] => (cur, [])
  | x :: xs =>
    if k cur < k x then ((exPass k x xs).1, cur :: (exPass k x xs).2)
    else ((exPass k cur xs).1, x :: (exPass k cur xs).2)

theorem exPass_cons_pos {α β : Type} [LinearOrder β] {k : α → β} {cur x : α} {xs : List α}
    (h : k cur < k x) :
    exPass k cur (x :: xs) = ((exPass k x xs).1, cur :: (exPass k x xs).2) := by
  rw [exPass, if_pos h]

theorem exPass_cons_neg {α β : Type} [LinearOrder β] {k : α → β} {cur x : α} {xs : List α}
    (h : ¬k cur < k x) :
    exPass k cur (x :: xs) = ((exPass k cur xs).1, x :: (exPass k cur xs).2) := by
  rw [exPass, if_neg h]

theorem exPass_length {α β : Type} [LinearOrder β] (k : α → β) (cur : α) (l : List α) :
    (exPass k cur l).2.length = l.length := by
  induction l generalizing cur with
  | nil => rfl
  | cons x xs ih =>
    by_cases h : k cur < k x
    · rw [exPass_cons_pos h]; simp [ih]
    · rw [exPass_cons_neg h]; simp [ih]

/-- The outer loop: place the champion of the remaining slots, recurse on the rest. -/
def exSort {α β : Type} [LinearOrder β] (k : α → β) : List α → List α
  | [] => []
  | x :: xs => (exPass k x xs).1 :: exSort k (exPass k x xs).2
  termination_by l => l.length
  decreasing_by simp [exPass_length]

theorem exPass_perm {α β : Type} [LinearOrder β] (k : α → β) (cur : α) (l : List α) :
    ((exPass k cur l).1 :: (exPass k cur l).2).Perm (cur :: l) := by
  induction l generalizing cur with
  | nil => rfl
  | cons x xs ih =>
    by_cases h : k cur < k x
    · rw [exPass_cons_pos h]
      dsimp only
      exact List.Perm.trans (List.Perm.swap cur _ _) ((ih x).cons cur)
    · rw [exPass_cons_neg h]
      dsimp only
      exact ((List.Perm.swap x _ _).trans ((ih cur).cons x)).trans (List.Perm.swap cur x xs)

theorem exPass_max {α β : Type} [LinearOrder β] (k : α → β) (cur : α) (l : List α) :
    k cur ≤ k (exPass k cur l).1 ∧ ∀ y ∈ (exPass k cur l).2, k y ≤ k (exPass k cur l).1 := by
  induction l generalizing cur with
  | nil => exact ⟨le_refl _, by simp [exPass]⟩
  | cons x xs ih =>
    by_cases h : k cur < k x
    · rw [exPass_cons_pos h]
      refine ⟨le_trans (le_of_lt h) (ih x).1, ?_⟩
      intro y hy
      rcases List.mem_cons.mp hy with rfl | hy
      · exact le_trans (le_of_lt h) (ih x).1
      · exact (ih x).2 y hy
    · rw [exPass_cons_neg h]
      refine ⟨(ih cur).1, ?_⟩
      intro y hy
      rcases List.mem_cons.mp hy with rfl | hy
      · exact le_trans (le_of_not_lt h) (ih cur).1
      · exact (ih cur).2 y hy

theorem exSort_perm {α β : Type} [LinearOrder β] (k : α → β) (l : List α) :
    (exSort k l).Perm l := by
  have key : ∀ (n : ℕ) (l : List α), l.length = n → (exSort k l).Perm l := by
    intro n
    induction n using Nat.strong_induction_on with
    | _ n ih =>
      intro l hl
      cases l with
      | nil => rw [exSort]
      | cons x xs =>
        rw [exSort]
        have hlen : (exPass k x xs).2.length < n := by
          rw [exPass_length]; simp at hl; omega
        exact List.Perm.trans ((ih _ hlen _ rfl).cons _) (exPass_perm k x xs)
  exact key l.length l rfl

/-- The exchange sort leaves the list sorted with weakly decreasing keys. -/
theorem exSort_sorted {α β : Type} [LinearOrder β] (k : α → β) (l : List α) :
    (exSort k l).Pairwise (fun a b => k b ≤ k a) := by
  have key : ∀ (n : ℕ) (l : List α), l.length = n →
      (exSort k l).Pairwise (fun a b => k b ≤ k a) := by
    intro n
    induction n using Nat.strong_induction_on with
    | _ n ih =>
      intro l hl
      cases l with
      | nil => rw [exSort]; exact List.Pairwise.nil
      | cons x xs =>
        rw [exSort]
        have hlen : (exPass k x xs).2.length < n := by
          rw [exPass_length]; simp at hl; omega
        refine List.Pairwise.cons ?_ (ih _ hlen _ rfl)
        intro y hy
        have hmem : y ∈ (exPass k x xs).2 := (exSort_perm k _).mem_iff.mp hy
        exact (exPass_max k x xs).2 y hmem
  exact key l.length l rfl

/-- C1 (failing input): a confirm delta `(1,0)` followed by a correct delta `(0,1)` on
the same batch leaves cumulative counts `(1,1)` but `accuracy_rate = 0`, not `1/2`:
the stored rate is recomputed from the latest deltas, not from the cumulative row. -/
theorem update_model_accuracy_rate_not_cumulative :
    (updateModelAccuracy (updateModelAccuracy
        [⟨"qwen3:8b", "B1", 10, 5000, 500, 4/5, 0, 0, 0, 0⟩] "B1" 1 0) "B1" 0 1).map
      (fun r => (r.confirmedCount, r.correctedCount, r.accuracyRate)) = [(1, 1, 0)] ∧
    ((0 : ℚ) ≠ 1 / (1 + 1)) := by
  constructor
  · norm_num [updateModelAccuracy]
  · norm_num

/-! ### `GetModelSummaries` and `GetBestModel` -/

/-- A `ModelSummary` of `GetModelSummaries`. -/
structure ModelSummary where
  modelName : String
  totalBatches : ℕ
  totalFiles : ℕ
  avgTimePerFileMs : ℚ
  avgConfidence : ℚ
  totalConfirmed : ℕ
  totalCorrected : ℕ
  accuracyRate : ℚ
  score : ℚ
  lastUsed : ℕ
  deriving DecidableEq, Repr

/-- The rows aggregated for one `model_name` (`GROUP BY model_name`). -/
def rowsFor (t : List StatsRow) (name : String) : List StatsRow :=
  t.filter (fun r => decide (r.modelName = name))

/-- `accuracy_rate` of a summary: feedback ratio when any feedback exists, otherwise
the average confidence estimate. -/
def accuracyOf (confirmed corrected : ℕ) (avgConf : ℚ) : ℚ :=
  if 0 < confirmed + corrected then (confirmed : ℚ) / ((confirmed + corrected : ℕ) : ℚ)
  else avgConf

/-- The speed score: `1 - avg_time/1000`, clamped into `[0, 1]` by two sequential
comparisons. -/
def speedScoreOf (avgTime : ℚ) : ℚ :=
  let s0 := 1 - avgTime / 1000
  let s1 := if s0 < 0 then 0 else s0
  if 1 < s1 then 1 else s1

/-- One aggregated summary row: counts and sums over the group, `AVG` for the time
and confidence columns, `MAX(created_at)`, and the composite score
`0.5·accuracy + 0.3·confidence + 0.2·speed`. -/
def summaryFor (t : List StatsRow) (name : String) : ModelSummary where
  modelName := name
  totalBatches := (rowsFor t name).length
  totalFiles := ((rowsFor t name).map (fun r => r.fileCount)).sum
  avgTimePerFileMs :=
    ((rowsFor t name).map (fun r => r.avgTimePerFileMs)).sum / ((rowsFor t name).length : ℚ)
  avgConfidence :=
    ((rowsFor t name).map (fun r => r.avgConfidence)).sum / ((rowsFor t name).length : ℚ)
  totalConfirmed := ((rowsFor t name).map (fun r => r.confirmedCount)).sum
  totalCorrected := ((rowsFor t name).map (fun r => r.correctedCount)).sum
  accuracyRate :=
    accuracyOf ((rowsFor t name).map (fun r => r.confirmedCount)).sum
      ((rowsFor t name).map (fun r => r.correctedCount)).sum
      (((rowsFor t name).map (fun r => r.avgConfidence)).sum / ((rowsFor t name).length : ℚ))
  score :=
    accuracyOf ((rowsFor t name).map (fun r => r.confirmedCount)).sum
        ((rowsFor t name).map (fun r => r.correctedCount)).sum
        (((rowsFor t name).map (fun r => r.avgConfidence)).sum /
          ((rowsFor t name).length : ℚ)) * 0.5 +
      (((rowsFor t name).map (fun r => r.avgConfidence)).sum /
        ((rowsFor t name).length : ℚ)) * 0.3 +
      speedScoreOf (((rowsFor t name).map (fun r => r.avgTimePerFileMs)).sum /
        ((rowsFor t name).length : ℚ)) * 0.2
  lastUsed := ((rowsFor t name).map (fun r => r.createdAt)).foldl max 0

/-- `GetModelSummaries`: aggregate per model name (`ORDER BY total_files DESC` in
SQL), then the in-place exchange sort by descending score. -/
def getModelSummaries (t : List StatsRow) : List ModelSummary :=
  let names := (t.map (fun r => r.modelName)).dedup
  let base := names.map (summaryFor t)
  let pre := base.mergeSort (fun a b => decide (b.totalFiles ≤ a.totalFiles))
  exSort (fun s => s.score) pre

/-- `GetBestModel`: the first summary in score order with at least ten files, else
the empty string. -/
def getBestModel (t : List StatsRow) : String :=
  match (getModelSummaries t).find? (fun s => decide (10 ≤ s.totalFiles)) with
  | some s => s.modelName
  | none => ""

theorem mem_summaries_eq_summaryFor {t : List StatsRow} {s : ModelSummary}
    (h : s ∈ getModelSummaries t) : ∃ name, s = summaryFor t name := by
  have h1 : s ∈ ((t.map (fun r => r.modelName)).dedup.map (summaryFor t)).mergeSort
      (fun a b => decide (b.totalFiles ≤ a.totalFiles)) :=
    (exSort_perm _ _).mem_iff.mp h
  have h2 : s ∈ (t.map (fun r => r.modelName)).dedup.map (summaryFor t) :=
    (List.mergeSort_perm _ _).mem_iff.mp h1
  rcases List.mem_map.mp h2 with ⟨name, _, rfl⟩
  exact ⟨name, rfl⟩

theorem summaryFor_accuracy_score (t : List StatsRow) (name : String) :
    (summaryFor t name).accuracyRate =
      accuracyOf (summaryFor t name).totalConfirmed (summaryFor t name).totalCorrected
        (summaryFor t name).avgConfidence ∧
    (summaryFor t name).score =
      (summaryFor t name).accuracyRate * 0.5 + (summaryFor t name).avgConfidence * 0.3 +
        speedScoreOf (summaryFor t name).avgTimePerFileMs * 0.2 :=
  ⟨rfl, rfl⟩

theorem speedScoreOf_mem_unit (q : ℚ) : 0 ≤ speedScoreOf q ∧ speedScoreOf q ≤ 1 := by
  rw [speedScoreOf]
  by_cases h0 : 1 - q / 1000 < 0
  · simp only [h0, if_pos, if_true]
    norm_num
  · simp only [h0, if_false, ite_false]
    by_cases h1 : 1 < (1 : ℚ) - q / 1000
    · rw [if_pos h1]; norm_num
    · rw [if_neg h1]
      constructor
      · linarith [not_lt.mp h0]
      · linarith [not_lt.mp h1]

theorem find?_first_is_max {p : ModelSummary → Bool} :
    ∀ {l : List ModelSummary}, l.Pairwise (fun a b => b.score ≤ a.score) →
      ∀ {s : ModelSummary}, l.find? p = some s →
        ∀ s2 ∈ l, p s2 = true → s2.score ≤ s.score := by
  intro l
  induction l with
  | nil => intro _ s hfind; simp at hfind
  | cons x xs ih =>
    intro hsort s hfind s2 hs2 hp2
    by_cases hx : p x = true
    · rw [List.find?_cons_of_pos _ hx] at hfind
      injection hfind with hfind
      subst hfind
      rcases List.mem_cons.mp hs2 with rfl | hs2
      · exact le_refl _
      · exact (List.pairwise_cons.mp hsort).1 s2 hs2
    · rw [List.find?_cons_of_neg _ hx] at hfind
      rcases List.mem_cons.mp hs2 with rfl | hs2
      · exact absurd hp2 hx
      · exact ih (List.pairwise_cons.mp hsort).2 hfind s2 hs2 hp2

/-- C8: `get_model_summaries` returns summaries sorted by descending score, each with
`accuracy_rate` the cumulative feedback ratio (or the mean confidence without
feedback), a clamped speed score, and the `0.5/0.3/0.2` composite; `get_best_model`
is empty iff no summary has ten files, and otherwise names a maximal-score summary
among those with at least ten files. -/
theorem get_model_summaries_scoring (t : List StatsRow) :
    (getModelSummaries t).Pairwise (fun a b => b.score ≤ a.score) ∧
    (∀ s ∈ getModelSummaries t,
      (0 < s.totalConfirmed + s.totalCorrected →
        s.accuracyRate =
          (s.totalConfirmed : ℚ) / ((s.totalConfirmed : ℚ) + (s.totalCorrected : ℚ))) ∧
      (s.totalConfirmed + s.totalCorrected = 0 → s.accuracyRate = s.avgConfidence) ∧
      s.score = s.accuracyRate * 0.5 + s.avgConfidence * 0.3 +
        speedScoreOf s.avgTimePerFileMs * 0.2 ∧
      0 ≤ speedScoreOf s.avgTimePerFileMs ∧ speedScoreOf s.avgTimePerFileMs ≤ 1) ∧
    ((getBestModel t = "" ∧ ∀ s ∈ getModelSummaries t, s.totalFiles < 10) ∨
      (∃ s ∈ getModelSummaries t, 10 ≤ s.totalFiles ∧ getBestModel t = s.modelName ∧
        ∀ s2 ∈ getModelSummaries t, 10 ≤ s2.totalFiles → s2.score ≤ s.score)) := by
  refine ⟨exSort_sorted _ _, ?_, ?_⟩
  · intro s hs
    rcases mem_summaries_eq_summaryFor hs with ⟨name, rfl⟩
    rcases summaryFor_accuracy_score t name with ⟨hacc, hscore⟩
    refine ⟨?_, ?_, hscore, speedScoreOf_mem_unit _⟩
    · intro hpos
      rw [hacc, accuracyOf, if_pos hpos]
      push_cast
      ring
    · intro hzero
      rw [hacc, accuracyOf, if_neg (by omega)]
  · rcases hfind : (getModelSummaries t).find? (fun s => decide (10 ≤ s.totalFiles)) with
      _ | s
    · left
      constructor
      · rw [getBestModel, hfind]
      · intro s hs
        have := List.find?_eq_none.mp hfind s hs
        simp at this
        omega
    · right
      refine ⟨s, List.mem_of_find?_eq_some hfind, ?_, ?_, ?_⟩
      · have := List.find?_some hfind
        simpa using this
      · rw [getBestModel, hfind]
      · intro s2 hs2 h10
        exact find?_first_is_max (exSort_sorted _ _) hfind s2 hs2 (by simpa using h10)

/-- Witness for C8: a one-row store whose model has twelve files and feedback `(3,1)`
yields the summary itself as best model, with `accuracy_rate = 3/4`. -/
theorem get_model_summaries_scoring_witness :
    summaryFor [⟨"m", "B", 12, 6000, 500, 4/5, 3, 1, 3/4, 7⟩] "m" ∈
      getModelSummaries [⟨"m", "B", 12, 6000, 500, 4/5, 3, 1, 3/4, 7⟩] ∧
    0 < (summaryFor [⟨"m", "B", 12, 6000, 500, 4/5, 3, 1, 3/4, 7⟩] "m").totalConfirmed +
      (summaryFor [⟨"m", "B", 12, 6000, 500, 4/5, 3, 1, 3/4, 7⟩] "m").totalCorrected ∧
    (summaryFor [⟨"m", "B", 12, 6000, 500, 4/5, 3, 1, 3/4, 7⟩] "m").accuracyRate = 3 / 4 := by
  have hmem : summaryFor [⟨"m", "B", 12, 6000, 500, 4/5, 3, 1, 3/4, 7⟩] "m" ∈
      getModelSummaries [⟨"m", "B", 12, 6000, 500, 4/5, 3, 1, 3/4, 7⟩] := by
    rw [getModelSummaries]
    have hded : (([⟨"m", "B", 12, 6000, 500, 4/5, 3, 1, 3/4, 7⟩] : List StatsRow).map
        (fun r => r.modelName)).dedup = ["m"] := by decide
    rw [hded]
    simp only [List.map_cons, List.map_nil, List.mergeSort_singleton]
    rw [exSort]
    simp [exPass, exSort]
  have hc := (get_model_summaries_scoring [⟨"m", "B", 12, 6000, 500, 4/5, 3, 1, 3/4, 7⟩]).2.1
    _ hmem
  have hpos : 0 < (summaryFor [⟨"m", "B", 12, 6000, 500, 4/5, 3, 1, 3/4, 7⟩] "m").totalConfirmed +
      (summaryFor [⟨"m", "B", 12, 6000, 500, 4/5, 3, 1, 3/4, 7⟩] "m").totalCorrected := by
    decide
  refine ⟨hmem, hpos, ?_⟩
  rw [hc.1 hpos]
  norm_num [summaryFor, rowsFor]

/-! ### `classification_history` and `vectors` tables, memory state -/

/-- A row of `classification_history`. -/
structure HistRow where
  filename : String
  extension : String
  category : String
  subcategory : String
  confidence : ℝ
  keywords : List String
  userConfirmed : Bool
  source : String

/-- A row of `vectors`. -/
structure VecRow where
  filename : String
  category : String
  subcategory : String
  vector : List ℝ

/-- The tables the memory system reads and writes.  `history` and `vectors` are kept
newest-first. -/
structure MemState where
  rules : List Rule
  history : List HistRow
  vectors : List VecRow

/-- `extractKeywords`: strip the extension, then the narrow regex
`[Han]+ | [A-Za-z]{2,} | [0-9]{4,}` (letter runs shorter than 2 and digit runs
shorter than 4 produce no match). -/
def extractKeywords (filename : String) : List String :=
  (runsOf (stripExt filename).data).filterMap (fun p =>
    if p.1 = 0 then some (String.mk p.2)
    else if p.1 = 1 ∧ 2 ≤ p.2.length then some (String.mk p.2)
    else if p.1 = 2 ∧ 4 ≤ p.2.length then some (String.mk p.2)
    else none)

/-- `filenameSimilarity`: Jaccard coefficient of the deduplicated wide-token sets of
the lowercased names; `0` when either set is empty. -/
def filenameSimilarity (n1 n2 : String) : ℚ :=
  let w1 := (tokensOf (strToLower n1)).dedup
  let w2 := (tokensOf (strToLower n2)).dedup
  if w1 = [] ∨ w2 = [] then 0
  else
    let inter := (w1.filter (fun w => decide (w ∈ w2))).length
    (inter : ℚ) / ((w1.length + w2.length - inter : ℕ) : ℚ)

/-- `ORDER BY priority DESC, hit_count DESC` (SQLite leaves ties unspecified; the
model uses the stable sort on table order). -/
def sortRules (rs : List Rule) : List Rule :=
  rs.mergeSort (fun a b =>
    decide (b.priority < a.priority ∨ (a.priority = b.priority ∧ b.hitCount ≤ a.hitCount)))

/-- Deduplication by `pattern|category`, keeping first occurrences. -/
def dedupRules : List Rule → List String → List Rule
  | [], _ => []
  | r :: rest, seen =>
    let key := r.pattern ++ "|" ++ r.category
    if key ∈ seen then dedupRules rest seen
    else r :: dedupRules rest (key :: seen)

/-- `GetMatchingRules`: up to three extension rules with `pattern = ext`, then per
keyword of byte length at least 2 up to three keyword rules whose pattern occurs in
the lowercased filename; deduplicated by `(pattern, category)`. -/
def getMatchingRules (rules : List Rule) (filename : String) (keywords : List String)
    (ext : String) : List Rule :=
  let fn := strToLower filename
  let ex := strToLower ext
  let extMatches :=
    if ex ≠ "" then
      (sortRules (rules.filter (fun r =>
        decide (r.patternType = "extension" ∧ r.pattern = ex)))).take 3
    else []
  let kwMatches := keywords.foldl (fun acc kw =>
    if 2 ≤ kw.utf8ByteSize then
      acc ++ (sortRules (rules.filter (fun r =>
        decide (r.patternType = "keyword") && containsSub r.pattern.data fn.data))).take 3
    else acc) []
  dedupRules (extMatches ++ kwMatches) []

/-- `GetSimilarClassifications`: confirmed history rows whose lowercased filename
contains some keyword of byte length at least 2, newest first, capped at `limit`. -/
def getSimilarClassifications (history : List HistRow) (keywords : List String)
    (limit : ℕ) : List HistRow :=
  let conds := keywords.filter (fun kw => decide (2 ≤ kw.utf8ByteSize))
  if conds.isEmpty then []
  else (history.filter (fun h => h.userConfirmed &&
    conds.any (fun kw => containsSub (strToLower kw).data (strToLower h.filename).data))).take
    limit

/-- Weight accumulation of `GetCandidateCategories` (the Go map in first-insertion
order; map iteration order is not observable in the claims below). -/
def addWeight (m : List (String × ℕ)) (cat : String) (w : ℕ) : List (String × ℕ) :=
  if m.any (fun q => decide (q.1 = cat)) then
    m.map (fun q => if q.1 = cat then (q.1, q.2 + w) else q)
  else m ++ [(cat, w)]

/-- `ORDER BY hit_count DESC`. -/
def sortByHit (rs : List Rule) : List Rule :=
  rs.mergeSort (fun a b => decide (b.hitCount ≤ a.hitCount))

/-- The per-keyword confirmed-history category counts of `GetCandidateCategories`
(`GROUP BY category ORDER BY cnt DESC`). -/
def histCatCounts (history : List HistRow) (kw : String) : List (String × ℕ) :=
  let matching := history.filter (fun h =>
    h.userConfirmed && containsSub kw.data (strToLower h.filename).data)
  ((matching.map (fun h => h.category)).dedup.map (fun c =>
    (c, matching.countP (fun h => decide (h.category = c))))).mergeSort
    (fun a b => decide (b.2 ≤ a.2))

/-- `GetCandidateCategories`: weights from keyword rules (`hit_count`), extension
rules (`2 × hit_count`) and confirmed history counts, sorted by the exchange sort,
top five category names. -/
def getCandidateCategories (st : MemState) (keywords : List String) (ext : String) :
    List String :=
  let m1 := keywords.foldl (fun m kw =>
    if 2 ≤ kw.utf8ByteSize then
      ((sortByHit (st.rules.filter (fun r =>
        decide (r.pattern = strToLower kw) ||
          containsSub (strToLower kw).data r.pattern.data))).take 3).foldl
        (fun m r => addWeight m r.category r.hitCount) m
    else m) []
  let m2 :=
    if ext ≠ "" then
      ((sortByHit (st.rules.filter (fun r =>
        decide (r.patternType = "extension" ∧ r.pattern = ext)))).take 3).foldl
        (fun m r => addWeight m r.category (r.hitCount * 2)) m1
    else m1
  let m3 := keywords.foldl (fun m kw =>
    if 2 ≤ kw.utf8ByteSize then
      ((histCatCounts st.history (strToLower kw)).take 3).foldl
        (fun m q => addWeight m q.1 q.2) m
    else m) m2
  ((exSort (fun q => q.2) m3).take 5).map (fun q => q.1)

/-- `SearchVectors`: the most recent `limit` vector rows. -/
def searchVectors (vectors : List VecRow) (limit : ℕ) : List VecRow := vectors.take limit

/-- `SearchVectorsByCategories`: category-filtered vectors, falling back to the
unfiltered search on an empty category list. -/
def searchVectorsByCategories (st : MemState) (cats : List String) (limit : ℕ) :
    List VecRow :=
  if cats = [] then searchVectors st.vectors limit
  else (st.vectors.filter (fun v => decide (v.category ∈ cats))).take limit

/-- `SearchVectorsByExtension`.  The SQL uses `COUNT(*)` in `ORDER BY` without
`GROUP BY`, which in SQLite collapses the query to a single aggregate row whose bare
`category` column comes from one of the matching rows (`NULL`, skipped by the string
scan, when none match); the model picks the first matching row. -/
def searchVectorsByExtension (st : MemState) (ext : String) (limit : ℕ) : List VecRow :=
  match st.history.filter (fun h => decide (h.extension = ext) && h.userConfirmed) with
  | [] => searchVectors st.vectors limit
  | h :: _ => searchVectorsByCategories st [h.category] limit

/-! ### The memory system (`internal/memory`) -/

/-- The fields of the global configuration read by the classifier pipeline. -/
structure Config where
  similarityThreshold : ℝ
  enableLearning : Bool
  batchSize : ℕ
  llmModel : String

/-- A memory `Match`. -/
structure MatchRes where
  category : String
  subcategory : String
  confidence : ℝ
  source : String
  reasoning : String

/-- `Memory.matchRules`: take the best matching rule and score it
`min(0.95, 0.6 + hit_count/50 × 0.35)`. -/
noncomputable def matchRules (st : MemState) (filename : String) : Option MatchRes :=
  let keywords := extractKeywords filename
  let ex := strToLower (extOf filename)
  match getMatchingRules st.rules filename keywords ex with
  | [] => none
  | best :: _ =>
    let conf : ℝ := 0.6 + (best.hitCount : ℝ) / 50 * 0.35
    let conf := if conf > 0.95 then 0.95 else conf
    some ⟨best.category, best.subcategory, conf, "rule",
      "匹配规则: " ++ best.patternType ++ "「" ++ best.pattern ++ "」"⟩

/-- The running best of the vector scan. -/
structure BestVec where
  filename : String
  category : String
  subcategory : String
  sim : ℝ

/-- `Memory.matchVectors`: embed the filename, fetch the candidate pool
(categories, else extension, capped at 200), take the most similar vector, succeed at
or above the similarity threshold. -/
noncomputable def matchVectors (cfg : Config) (st : MemState) (filename : String) :
    Option MatchRes :=
  let queryVec := embed filename
  let keywords := extractKeywords filename
  let ex := strToLower (extOf filename)
  let cats := getCandidateCategories st keywords ex
  let vectors :=
    if 0 < cats.length then searchVectorsByCategories st cats 200
    else searchVectorsByExtension st ex 200
  if vectors.isEmpty then none
  else
    let best := vectors.foldl (fun (b : BestVec) v =>
      let s := similarity queryVec v.vector
      if b.sim < s then ⟨v.filename, v.category, v.subcategory, s⟩ else b) ⟨"", "", "", 0⟩
    if best.sim < cfg.similarityThreshold then none
    else some ⟨best.category, best.subcategory, best.sim, "vector", "相似文件: " ++ best.filename⟩

/-- `Memory.matchHistory`: best confirmed history hit, scored `0.9 × Jaccard`. -/
noncomputable def matchHistory (st : MemState) (filename : String) : Option MatchRes :=
  let keywords := extractKeywords filename
  if keywords.isEmpty then none
  else
    match getSimilarClassifications st.history keywords 5 with
    | [] => none
    | best :: _ =>
      some ⟨best.category, best.subcategory,
        ((filenameSimilarity filename best.filename : ℚ) : ℝ) * 0.9,
        "history", "历史记录: " ++ best.filename⟩

/-- Tier C of `Memory.Query`. -/
noncomputable def queryHistTier (cfg : Config) (st : MemState) (filename : String) :
    Option MatchRes :=
  match matchHistory st filename with
  | some m => if cfg.similarityThreshold ≤ m.confidence then some m else none
  | none => none

/-- Tiers B–C of `Memory.Query`. -/
noncomputable def queryVecTier (cfg : Config) (st : MemState) (filename : String) :
    Option MatchRes :=
  match matchVectors cfg st filename with
  | some m =>
    if cfg.similarityThreshold ≤ m.confidence then some m
    else queryHistTier cfg st filename
  | none => queryHistTier cfg st filename

/-- `Memory.Query`: rules, then vectors, then history, each accepted only at or above
the similarity threshold. -/
noncomputable def memQuery (cfg : Config) (st : MemState) (filename : String) :
    Option MatchRes :=
  match matchRules st filename with
  | some m =>
    if cfg.similarityThreshold ≤ m.confidence then some m
    else queryVecTier cfg st filename
  | none => queryVecTier cfg st filename

/-- `Memory.learnRules`: upsert one extension rule (priority 5) and one keyword rule
per keyword of byte length at least 2 (priority 10). -/
def learnRules (st : MemState) (filename category subcategory : String) : MemState :=
  let ex := strToLower (extOf filename)
  let keywords := extractKeywords filename
  let st1 :=
    if ex ≠ "" then
      { st with rules := addOrUpdateRule st.rules ex "extension" category subcategory 5 }
    else st
  keywords.foldl (fun s kw =>
    if 2 ≤ kw.utf8ByteSize then
      { s with rules := addOrUpdateRule s.rules (strToLower kw) "keyword" category subcategory 10 }
    else s) st1

/-- `Memory.Learn`: insert a history row and a vector row; when user-confirmed, also
learn rules. -/
noncomputable def learn (st : MemState) (filename category subcategory source : String)
    (confidence : ℝ) (userConfirmed : Bool) : MemState :=
  let ex := strToLower (extOf filename)
  let keywords := extractKeywords filename
  let st1 :=
    { st with history :=
        ⟨filename, ex, category, subcategory, confidence, keywords, userConfirmed, source⟩ ::
          st.history }
  let st2 := { st1 with vectors :=
    ⟨filename, category, subcategory, embed filename⟩ :: st1.vectors }
  if userConfirmed then learnRules st2 filename category subcategory else st2

/-! ### The classifier (`internal/classifier`)

The LLM gateway is an external HTTP service; the parsed JSON object that
`ClassifyFiles` returns for the `k`-th batch (or `none` for a timeout/parse failure)
is an input `resps : ℕ → Option (List (String × JVal))` of the model. -/

/-- A scanner `FileInfo` record (the `ModTime` field is never read by the engine). -/
structure FileInfo where
  path : String
  name : String
  extension : String
  size : ℤ
  isDir : Bool

/-- A classifier `Result`. -/
structure Result where
  file : FileInfo
  category : String
  subcategory : String
  confidence : ℝ
  reasoning : String
  source : String
  keywords : List String

/-- Dynamic JSON values as decoded by `encoding/json` into `interface`-typed maps. -/
inductive JVal where
  | jstr : String → JVal
  | jnum : ℝ → JVal
  | jbool : Bool → JVal
  | jnull : JVal
  | jarr : List JVal → JVal
  | jobj : List (String × JVal) → JVal

/-- Map lookup on a decoded JSON object. -/
def jget (m : List (String × JVal)) (key : String) : Option JVal :=
  (m.find? (fun q => decide (q.1 = key))).map (fun q => q.2)

/-- `getString`: the string value of the key, or the default. -/
def getString (m : List (String × JVal)) (key d : String) : String :=
  match jget m key with
  | some (.jstr s) => s
  | _ => d

/-- `getFloat`: the numeric value of the key, or the default — no clamping. -/
def getFloat (m : List (String × JVal)) (key : String) (d : ℝ) : ℝ :=
  match jget m key with
  | some (.jnum v) => v
  | _ => d

/-- `getStringSlice`: the string members of an array value. -/
def getStringSlice (m : List (String × JVal)) (key : String) : List String :=
  match jget m key with
  | some (.jarr l) => l.filterMap (fun v =>
      match v with
      | .jstr s => some s
      | _ => none)
  | _ => []

/-- The per-file default `Result` materialised when a batch call fails. -/
noncomputable def errResult (f : FileInfo) : Result :=
  ⟨f, "未分类", "其他", 0, "分类失败", "error", []⟩

/-- The `Result` built from one parsed classification entry. -/
noncomputable def mkLLMResult (f : FileInfo) (m : List (String × JVal)) : Result :=
  ⟨f, getString m "category" "未分类", getString m "subcategory" "其他",
    getFloat m "confidence" 0.5, getString m "reasoning" "", "llm", getStringSlice m "keywords"⟩

/-- Chunking of the deferred files by `batch_size` (`for i := 0; i < n; i += bs`).
`BatchSize` is validated into `[5, 50]`; for `n = 0` the Go loop would not advance,
and the model chunks by one. -/
def chunkList {α : Type} (n : ℕ) : List α → List (List α)
  | [] => []
  | x :: xs => (x :: xs.take (n - 1)) :: chunkList n (xs.drop (n - 1))
  termination_by l => l.length
  decreasing_by simp; omega

/-- `classifyWithLLM`: per batch, either the parsed classifications zipped with the
batch files (entries that are not objects are skipped, surplus entries ignored), or
per-file error results on failure. -/
noncomputable def classifyWithLLM (cfg : Config)
    (resps : ℕ → Option (List (String × JVal))) (files : List FileInfo) : List Result :=
  ((chunkList cfg.batchSize files).enum).flatMap (fun kb =>
    match resps kb.1 with
    | none => kb.2.map errResult
    | some resp =>
      let classifications :=
        match jget resp "classifications" with
        | some (.jarr l) => l
        | _ => []
      (classifications.zip kb.2).filterMap (fun cf =>
        match cf.1 with
        | .jobj cm => some (mkLLMResult cf.2 cm)
        | _ => none))

/-- The memory-phase decision for one file: a `Query` match at or above the
threshold. -/
noncomputable def memDecision (cfg : Config) (st : MemState) (f : FileInfo) :
    Option MatchRes :=
  match memQuery cfg st f.name with
  | some m => if cfg.similarityThreshold ≤ m.confidence then some m else none
  | none => none

/-- The `Result` emitted for a memory hit: note the hard-coded `source = "memory"`. -/
noncomputable def memResult (f : FileInfo) (m : MatchRes) : Result :=
  ⟨f, m.category, m.subcategory, m.confidence, m.reasoning, "memory", []⟩

/-- The `order` map built by `for i, f := range files` (last write wins, absent keys
read as 0). -/
def ordFold (l : List (ℕ × FileInfo)) (acc : ℕ) (p : String) : ℕ :=
  l.foldl (fun a nf => if nf.2.path = p then nf.1 else a) acc

/-- Scan-order index of a path. -/
def orderIdx (files : List FileInfo) (p : String) : ℕ := ordFold files.enum 0 p

/-- The memory-phase results of `Classify` (stage 1 hits, in scan order). -/
noncomputable def memoryPhaseResults (cfg : Config) (st : MemState)
    (files : List FileInfo) : List Result :=
  files.filterMap (fun f =>
    if f.isDir then none else (memDecision cfg st f).map (memResult f))

/-- The files `Classify` defers to the LLM (stage 1 misses, in scan order). -/
noncomputable def llmPhaseFiles (cfg : Config) (st : MemState) (files : List FileInfo) :
    List FileInfo :=
  files.filterMap (fun f =>
    if f.isDir then none
    else
      match memDecision cfg st f with
      | some _ => none
      | none => some f)

/-- The learning write-back of one LLM-phase result
(`memory.Learn(name, cat, sub, "llm", confidence, false)`). -/
noncomputable def learnStep (s : MemState) (r : Result) : MemState :=
  learn s r.file.name r.category r.subcategory "llm" r.confidence false

/-- `Classifier.Classify`: memory phase over non-directory files, LLM phase over the
misses, optional learning write-back of every LLM-phase result, and the final stable
sort by original scan order.  Returns the results and the memory state after
write-back. -/
noncomputable def classify (cfg : Config) (st : MemState)
    (resps : ℕ → Option (List (String × JVal))) (files : List FileInfo) :
    List Result × MemState :=
  let llmResults := classifyWithLLM cfg resps (llmPhaseFiles cfg st files)
  let st2 := if cfg.enableLearning then llmResults.foldl learnStep st else st
  let results := memoryPhaseResults cfg st files ++ llmResults
  (results.mergeSort (fun a b =>
    decide (orderIdx files a.file.path ≤ orderIdx files b.file.path)), st2)

/-! ### Confidence bounds of the memory tiers -/

theorem matchRules_spec {st : MemState} {fn : String} {m : MatchRes}
    (h : matchRules st fn = some m) :
    m.source = "rule" ∧ 0.6 ≤ m.confidence ∧ m.confidence ≤ 0.95 := by
  simp only [matchRules] at h
  rcases hg : getMatchingRules st.rules fn (extractKeywords fn) (strToLower (extOf fn)) with
    _ | ⟨best, rest⟩
  · rw [hg] at h
    exact absurd h (by simp)
  · rw [hg] at h
    injection h with h
    subst h
    refine ⟨rfl, ?_, ?_⟩
    · show (0.6 : ℝ) ≤ if 0.6 + (best.hitCount : ℝ) / 50 * 0.35 > 0.95 then 0.95
        else 0.6 + (best.hitCount : ℝ) / 50 * 0.35
      by_cases h95 : 0.6 + (best.hitCount : ℝ) / 50 * 0.35 > 0.95
      · rw [if_pos h95]; norm_num
      · rw [if_neg h95]
        have : (0 : ℝ) ≤ (best.hitCount : ℝ) / 50 * 0.35 := by positivity
        linarith
    · show (if 0.6 + (best.hitCount : ℝ) / 50 * 0.35 > 0.95 then (0.95 : ℝ)
        else 0.6 + (best.hitCount : ℝ) / 50 * 0.35) ≤ 0.95
      by_cases h95 : 0.6 + (best.hitCount : ℝ) / 50 * 0.35 > 0.95
      · rw [if_pos h95]
      · rw [if_neg h95]
        linarith [not_lt.mp h95]

theorem filenameSimilarity_bounds (n1 n2 : String) :
    0 ≤ filenameSimilarity n1 n2 ∧ filenameSimilarity n1 n2 ≤ 1 := by
  rw [filenameSimilarity]
  by_cases hz : (tokensOf (strToLower n1)).dedup = [] ∨ (tokensOf (strToLower n2)).dedup = []
  · simp only [hz, if_pos]
    norm_num
  · simp only [hz, if_neg, ite_false]
    push_neg at hz
    set w1 := (tokensOf (strToLower n1)).dedup with hw1
    set w2 := (tokensOf (strToLower n2)).dedup with hw2
    set inter := (w1.filter (fun w => decide (w ∈ w2))).length with hinter
    have hi1 : inter ≤ w1.length := List.length_filter_le _ _
    have hi2 : inter ≤ w2.length := by
      have hnd : (w1.filter (fun w => decide (w ∈ w2))).Nodup :=
        (List.nodup_dedup _).filter _
      have hsub : (w1.filter (fun w => decide (w ∈ w2))) ⊆ w2 := by
        intro x hx
        have := (List.mem_filter.mp hx).2
        simpa using this
      exact (List.subperm_of_subset hnd hsub).length_le
    have hlen1 : 1 ≤ w1.length := by
      rcases w1 with _ | _
      · exact absurd rfl hz.1
      · simp
    have hu : 1 ≤ w1.length + w2.length - inter := by omega
    have hupos : (0 : ℚ) < ((w1.length + w2.length - inter : ℕ) : ℚ) := by
      exact_mod_cast hu
    constructor
    · positivity
    · rw [div_le_one hupos]
      have : inter ≤ w1.length + w2.length - inter := by omega
      exact_mod_cast this

theorem matchHistory_spec {st : MemState} {fn : String} {m : MatchRes}
    (h : matchHistory st fn = some m) :
    m.source = "history" ∧ 0 ≤ m.confidence ∧ m.confidence ≤ 1 := by
  simp only [matchHistory] at h
  split at h
  · exact absurd h (by simp)
  · rcases hg : getSimilarClassifications st.history (extractKeywords fn) 5 with _ | ⟨best, rest⟩
    · rw [hg] at h
      exact absurd h (by simp)
    · rw [hg] at h
      injection h with h
      subst h
      rcases filenameSimilarity_bounds fn best.filename with ⟨hq0, hq1⟩
      have hc0 : (0 : ℝ) ≤ ((filenameSimilarity fn best.filename : ℚ) : ℝ) := by
        exact_mod_cast hq0
      have hc1 : ((filenameSimilarity fn best.filename : ℚ) : ℝ) ≤ 1 := by
        exact_mod_cast hq1
      refine ⟨rfl, ?_, ?_⟩
      · show (0 : ℝ) ≤ ((filenameSimilarity fn best.filename : ℚ) : ℝ) * 0.9
        nlinarith
      · show ((filenameSimilarity fn best.filename : ℚ) : ℝ) * 0.9 ≤ 1
        nlinarith

theorem foldBest_bounds (qv : List ℝ) (vectors : List VecRow) :
    ∀ b : BestVec, 0 ≤ b.sim → b.sim ≤ 1 →
      0 ≤ (vectors.foldl (fun (b : BestVec) v =>
        let s := similarity qv v.vector
        if b.sim < s then ⟨v.filename, v.category, v.subcategory, s⟩ else b) b).sim ∧
      (vectors.foldl (fun (b : BestVec) v =>
        let s := similarity qv v.vector
        if b.sim < s then ⟨v.filename, v.category, v.subcategory, s⟩ else b) b).sim ≤ 1 := by
  induction vectors with
  | nil => exact fun b h0 h1 => ⟨h0, h1⟩
  | cons v vs ih =>
    intro b h0 h1
    simp only [List.foldl_cons]
    by_cases hlt : b.sim < similarity qv v.vector
    · rw [if_pos hlt]
      exact ih _ (le_trans h0 (le_of_lt hlt)) (similarity_le_one _ _)
    · rw [if_neg hlt]
      exact ih b h0 h1

theorem matchVectors_spec {cfg : Config} {st : MemState} {fn : String} {m : MatchRes}
    (h : matchVectors cfg st fn = some m) :
    m.source = "vector" ∧ 0 ≤ m.confidence ∧ m.confidence ≤ 1 := by
  simp only [matchVectors] at h
  split at h <;>
  · split at h
    · exact absurd h (by simp)
    · split at h
      · exact absurd h (by simp)
      · injection h with h
        subst h
        refine ⟨rfl, ?_⟩
        exact foldBest_bounds (embed fn) _ ⟨"", "", "", 0⟩ (le_refl 0) (by norm_num)

theorem queryHistTier_spec {cfg : Config} {st : MemState} {fn : String} {m : MatchRes}
    (h : queryHistTier cfg st fn = some m) :
    m.source = "history" ∧ 0 ≤ m.confidence ∧ m.confidence ≤ 1 := by
  simp only [queryHistTier] at h
  split at h
  · split at h
    · injection h with h
      subst h
      exact matchHistory_spec (by assumption)
    · exact absurd h (by simp)
  · exact absurd h (by simp)

theorem queryVecTier_spec {cfg : Config} {st : MemState} {fn : String} {m : MatchRes}
    (h : queryVecTier cfg st fn = some m) :
    (m.source = "vector" ∨ m.source = "history") ∧ 0 ≤ m.confidence ∧ m.confidence ≤ 1 := by
  simp only [queryVecTier] at h
  split at h
  · split at h
    · injection h with h
      subst h
      rcases matchVectors_spec (by assumption) with ⟨hs, hb⟩
      exact ⟨Or.inl hs, hb⟩
    · rcases queryHistTier_spec h with ⟨hs, hb⟩
      exact ⟨Or.inr hs, hb⟩
  · rcases queryHistTier_spec h with ⟨hs, hb⟩
    exact ⟨Or.inr hs, hb⟩

theorem memQuery_spec {cfg : Config} {st : MemState} {fn : String} {m : MatchRes}
    (h : memQuery cfg st fn = some m) :
    (m.source = "rule" ∨ m.source = "vector" ∨ m.source = "history") ∧
      0 ≤ m.confidence ∧ m.confidence ≤ 1 := by
  simp only [memQuery] at h
  split at h
  · split at h
    · injection h with h
      subst h
      rcases matchRules_spec (by assumption) with ⟨hs, hb0, hb1⟩
      exact ⟨Or.inl hs, by linarith, by linarith⟩
    · rcases queryVecTier_spec h with ⟨hs, hb⟩
      exact ⟨Or.inr hs, hb⟩
  · rcases queryVecTier_spec h with ⟨hs, hb⟩
    exact ⟨Or.inr hs, hb⟩

theorem memDecision_eq_query {cfg : Config} {st : MemState} {f : FileInfo} {m : MatchRes}
    (h : memDecision cfg st f = some m) :
    memQuery cfg st f.name = some m ∧ cfg.similarityThreshold ≤ m.confidence := by
  simp only [memDecision] at h
  split at h
  · split at h
    · injection h with h
      subst h
      exact ⟨by assumption, by assumption⟩
    · exact absurd h (by simp)
  · exact absurd h (by simp)

theorem mem_classifyWithLLM_shape {cfg : Config} {resps : ℕ → Option (List (String × JVal))}
    {files : List FileInfo} {r : Result} (h : r ∈ classifyWithLLM cfg resps files) :
    (∃ f, r = errResult f) ∨ ∃ f cm, r = mkLLMResult f cm := by
  rw [classifyWithLLM] at h
  rcases List.mem_flatMap.mp h with ⟨kb, _, hr⟩
  rcases hresp : resps kb.1 with _ | resp
  · rw [hresp] at hr
    rcases List.mem_map.mp hr with ⟨f, _, rfl⟩
    exact Or.inl ⟨f, rfl⟩
  · rw [hresp] at hr
    dsimp only at hr
    rcases List.mem_filterMap.mp hr with ⟨cf, _, hsome⟩
    rcases hcls : cf.1 with s | q | b | _ | l | cm <;> rw [hcls] at hsome <;> simp at hsome
    exact Or.inr ⟨cf.2, cm, hsome.symm⟩

theorem mem_classify_results {cfg : Config} {st : MemState}
    {resps : ℕ → Option (List (String × JVal))} {files : List FileInfo} {r : Result}
    (h : r ∈ (classify cfg st resps files).1) :
    r ∈ memoryPhaseResults cfg st files ∨
      r ∈ classifyWithLLM cfg resps (llmPhaseFiles cfg st files) := by
  simp only [classify] at h
  have hmem := (List.mergeSort_perm _ _).mem_iff.mp h
  exact List.mem_append.mp hmem

theorem mem_memoryPhase {cfg : Config} {st : MemState} {files : List FileInfo} {r : Result}
    (h : r ∈ memoryPhaseResults cfg st files) :
    ∃ f ∈ files, ∃ m, memDecision cfg st f = some m ∧ r = memResult f m ∧ f.isDir = false := by
  rw [memoryPhaseResults] at h
  rcases List.mem_filterMap.mp h with ⟨f, hf, hsome⟩
  by_cases hd : f.isDir = true
  · rw [if_pos hd] at hsome
    exact absurd hsome (by simp)
  · rw [if_neg hd] at hsome
    rcases Option.map_eq_some'.mp hsome with ⟨m, hm, heq⟩
    exact ⟨f, hf, m, hm, heq.symm, by simpa using hd⟩

/-- C3 amended: every `Result` whose source is not `"llm"` (memory hits and error
fallbacks) has confidence in `[0, 1]`, and a rule-tier match is scored at most
`0.95`; an LLM-sourced result carries the payload confidence verbatim, so its bound
is only as good as the payload. -/
theorem classify_confidence_bounds (cfg : Config) (st : MemState)
    (resps : ℕ → Option (List (String × JVal))) (files : List FileInfo) :
    (∀ r ∈ (classify cfg st resps files).1, r.source ≠ "llm" →
      0 ≤ r.confidence ∧ r.confidence ≤ 1) ∧
    (∀ fn m, matchRules st fn = some m → m.source = "rule" ∧ m.confidence ≤ 0.95) := by
  constructor
  · intro r hr hsrc
    rcases mem_classify_results hr with hmem | hllm
    · rcases mem_memoryPhase hmem with ⟨f, _, m, hdec, rfl, _⟩
      rcases memDecision_eq_query hdec with ⟨hq, _⟩
      exact (memQuery_spec hq).2
    · rcases mem_classifyWithLLM_shape hllm with ⟨f, rfl⟩ | ⟨f, cm, rfl⟩
      · constructor <;> norm_num [errResult]
      · exact absurd rfl hsrc
  · intro fn m hm
    rcases matchRules_spec hm with ⟨hs, _, h95⟩
    exact ⟨hs, h95⟩

/-! ### Evaluation of the pipeline on an empty memory -/

theorem foldl_congr_id {α β : Type} {l : List β} {f : α → β → α}
    (h : ∀ a b, b ∈ l → f a b = a) : ∀ a, l.foldl f a = a := by
  induction l with
  | nil => intro a; rfl
  | cons x xs ih =>
    intro a
    rw [List.foldl_cons, h a x (by simp)]
    exact ih (fun a b hb => h a b (by simp [hb])) a

theorem getMatchingRules_nil (fn : String) (kws : List String) (ex : String) :
    getMatchingRules [] fn kws ex = [] := by
  rw [getMatchingRules]
  have h1 : (if strToLower ex ≠ "" then
      (sortRules (([] : List Rule).filter (fun r =>
        decide (r.patternType = "extension" ∧ r.pattern = strToLower ex)))).take 3
    else []) = [] := by
    split <;> simp [sortRules]
  rw [h1]
  rw [foldl_congr_id (fun acc kw _ => by split <;> simp [sortRules])]
  rfl

theorem getCandidateCategories_empty (kws : List String) (ex : String) :
    getCandidateCategories ⟨[], [], []⟩ kws ex = [] := by
  rw [getCandidateCategories]
  have h1 : kws.foldl (fun m kw =>
      if 2 ≤ kw.utf8ByteSize then
        ((sortByHit ((⟨[], [], []⟩ : MemState).rules.filter (fun r =>
          decide (r.pattern = strToLower kw) ||
            containsSub (strToLower kw).data r.pattern.data))).take 3).foldl
          (fun m r => addWeight m r.category r.hitCount) m
      else m) [] = [] := by
    rw [foldl_congr_id (fun a b _ => by split <;> simp [sortByHit])]
  rw [h1]
  have h2 : (if ex ≠ "" then
      ((sortByHit ((⟨[], [], []⟩ : MemState).rules.filter (fun r =>
        decide (r.patternType = "extension" ∧ r.pattern = ex)))).take 3).foldl
        (fun m r => addWeight m r.category (r.hitCount * 2)) [] else []) = [] := by
    split <;> simp [sortByHit]
  rw [h2]
  have h3 : kws.foldl (fun m kw =>
      if 2 ≤ kw.utf8ByteSize then
        ((histCatCounts (⟨[], [], []⟩ : MemState).history (strToLower kw)).take 3).foldl
          (fun m q => addWeight m q.1 q.2) m
      else m) [] = [] := by
    rw [foldl_congr_id (fun a b _ => by split <;> simp [histCatCounts])]
  rw [h3]
  rw [exSort]
  rfl

theorem memQuery_empty (cfg : Config) (fn : String) : memQuery cfg ⟨[], [], []⟩ fn = none := by
  have hr : matchRules ⟨[], [], []⟩ fn = none := by
    rw [matchRules]
    rw [getMatchingRules_nil]
  have hv : matchVectors cfg ⟨[], [], []⟩ fn = none := by
    rw [matchVectors]
    rw [getCandidateCategories_empty]
    simp [searchVectorsByExtension, searchVectors, searchVectorsByCategories]
  have hh : matchHistory ⟨[], [], []⟩ fn = none := by
    rw [matchHistory]
    split
    · rfl
    · have : getSimilarClassifications (⟨[], [], []⟩ : MemState).history
          (extractKeywords fn) 5 = [] := by
        rw [getSimilarClassifications]
        split <;> simp
      rw [this]
  rw [memQuery, hr, queryVecTier, hv, queryHistTier, hh]

theorem memDecision_empty (cfg : Config) (f : FileInfo) :
    memDecision cfg ⟨[], [], []⟩ f = none := by
  rw [memDecision, memQuery_empty]

/-- C4 amended: the `Match` of `Memory.Query` names the deciding tier in its
`Source` (`"rule"`, `"vector"` or `"history"`), but every `Result` emitted by
`Classify` carries source `"memory"`, `"llm"` or `"error"` — the tier name is not
propagated into the emitted result. -/
theorem query_source_tier_result_source_memory (cfg : Config) (st : MemState)
    (resps : ℕ → Option (List (String × JVal))) (files : List FileInfo) :
    (∀ fn m, memQuery cfg st fn = some m →
      m.source = "rule" ∨ m.source = "vector" ∨ m.source = "history") ∧
    (∀ r ∈ (classify cfg st resps files).1,
      r.source = "memory" ∨ r.source = "llm" ∨ r.source = "error") := by
  constructor
  · intro fn m hm
    exact (memQuery_spec hm).1
  · intro r hr
    rcases mem_classify_results hr with hmem | hllm
    · rcases mem_memoryPhase hmem with ⟨f, _, m, _, rfl, _⟩
      exact Or.inl rfl
    · rcases mem_classifyWithLLM_shape hllm with ⟨f, rfl⟩ | ⟨f, cm, rfl⟩
      · exact Or.inr (Or.inr rfl)
      · exact Or.inr (Or.inl rfl)

/-! ### Learning write-back -/

theorem learnRules_preserves (st : MemState) (fn cat sub : String) :
    (learnRules st fn cat sub).history = st.history ∧
      (learnRules st fn cat sub).vectors = st.vectors := by
  rw [learnRules]
  have hfold : ∀ (kws : List String) (s : MemState),
      ((kws.foldl (fun s kw =>
        if 2 ≤ kw.utf8ByteSize then
          { s with rules := addOrUpdateRule s.rules (strToLower kw) "keyword" cat sub 10 }
        else s) s).history = s.history ∧
      (kws.foldl (fun s kw =>
        if 2 ≤ kw.utf8ByteSize then
          { s with rules := addOrUpdateRule s.rules (strToLower kw) "keyword" cat sub 10 }
        else s) s).vectors = s.vectors) := by
    intro kws
    induction kws with
    | nil => intro s; exact ⟨rfl, rfl⟩
    | cons x xs ih =>
      intro s
      rw [List.foldl_cons]
      rcases ih (if 2 ≤ x.utf8ByteSize then
        { s with rules := addOrUpdateRule s.rules (strToLower x) "keyword" cat sub 10 }
        else s) with ⟨h1, h2⟩
      rw [h1, h2]
      split <;> exact ⟨rfl, rfl⟩
  rcases hfold (extractKeywords fn)
    (if strToLower (extOf fn) ≠ "" then
      { st with rules := addOrUpdateRule st.rules (strToLower (extOf fn)) "extension" cat sub 5 }
    else st) with ⟨h1, h2⟩
  rw [h1, h2]
  split <;> exact ⟨rfl, rfl⟩

theorem learn_writes (st : MemState) (fn cat sub src : String) (conf : ℝ) (confirmed : Bool) :
    (⟨fn, strToLower (extOf fn), cat, sub, conf, extractKeywords fn, confirmed, src⟩ : HistRow) ∈
      (learn st fn cat sub src conf confirmed).history ∧
    (⟨fn, cat, sub, embed fn⟩ : VecRow) ∈ (learn st fn cat sub src conf confirmed).vectors := by
  rw [learn]
  split
  · rcases learnRules_preserves _ fn cat sub with ⟨h1, h2⟩
    rw [h1, h2]
    exact ⟨by simp, by simp⟩
  · exact ⟨by simp, by simp⟩

theorem learn_mono (st : MemState) (fn cat sub src : String) (conf : ℝ) (confirmed : Bool) :
    st.history ⊆ (learn st fn cat sub src conf confirmed).history ∧
      st.vectors ⊆ (learn st fn cat sub src conf confirmed).vectors := by
  rw [learn]
  split
  · rcases learnRules_preserves _ fn cat sub with ⟨h1, h2⟩
    rw [h1, h2]
    exact ⟨by intro x hx; simp [hx], by intro x hx; simp [hx]⟩
  · exact ⟨by intro x hx; simp [hx], by intro x hx; simp [hx]⟩

theorem foldl_learnStep_mono (l : List Result) :
    ∀ st : MemState, st.history ⊆ (l.foldl learnStep st).history ∧
      st.vectors ⊆ (l.foldl learnStep st).vectors := by
  induction l with
  | nil => intro st; exact ⟨fun x hx => hx, fun x hx => hx⟩
  | cons r rs ih =>
    intro st
    rw [List.foldl_cons]
    rcases ih (learnStep st r) with ⟨h1, h2⟩
    rcases learn_mono st r.file.name r.category r.subcategory "llm" r.confidence false with
      ⟨g1, g2⟩
    exact ⟨fun x hx => h1 (g1 hx), fun x hx => h2 (g2 hx)⟩

theorem foldl_learnStep_writes (l : List Result) :
    ∀ st : MemState, ∀ r ∈ l,
      (∃ h ∈ (l.foldl learnStep st).history,
        h.filename = r.file.name ∧ h.category = r.category ∧ h.subcategory = r.subcategory ∧
        h.confidence = r.confidence ∧ h.source = "llm" ∧ h.userConfirmed = false) ∧
      ∃ v ∈ (l.foldl learnStep st).vectors,
        v.filename = r.file.name ∧ v.category = r.category := by
  induction l with
  | nil => intro st r hr; simp at hr
  | cons x xs ih =>
    intro st r hr
    rw [List.foldl_cons]
    rcases List.mem_cons.mp hr with rfl | hr
    · rcases learn_writes st r.file.name r.category r.subcategory "llm" r.confidence false with
        ⟨hh, hv⟩
      rcases foldl_learnStep_mono xs (learnStep st r) with ⟨m1, m2⟩
      exact ⟨⟨_, m1 hh, rfl, rfl, rfl, rfl, rfl, rfl⟩, ⟨_, m2 hv, rfl, rfl⟩⟩
    · exact ih (learnStep st x) r hr

/-- C2 amended: when `enable_learning` is false the learned state is untouched, but
when it is true every LLM-phase result — the per-file error results of a failed
batch (source `"error"`, confidence 0, category 未分类) included — is written back
as a history row (recorded with source `"llm"`, unconfirmed) and a vector row. -/
theorem llm_phase_written_back_iff_learning (cfg : Config) (st : MemState)
    (resps : ℕ → Option (List (String × JVal))) (files : List FileInfo) :
    (cfg.enableLearning = false → (classify cfg st resps files).2 = st) ∧
    (cfg.enableLearning = true →
      ∀ r ∈ classifyWithLLM cfg resps (llmPhaseFiles cfg st files),
        (∃ h ∈ (classify cfg st resps files).2.history,
          h.filename = r.file.name ∧ h.category = r.category ∧ h.subcategory = r.subcategory ∧
          h.confidence = r.confidence ∧ h.source = "llm" ∧ h.userConfirmed = false) ∧
        ∃ v ∈ (classify cfg st resps files).2.vectors,
          v.filename = r.file.name ∧ v.category = r.category) := by
  constructor
  · intro hoff
    simp only [classify, hoff]
    rfl
  · intro hon r hr
    simp only [classify, hon, if_pos]
    exact foldl_learnStep_writes _ st r hr

/-! ### Concrete fixtures for the counterexamples and witnesses -/

/-- A plain binary file with no memory of it. -/
def zxFile : FileInfo := ⟨"/d/zx.bin", "zx.bin", ".bin", 1, false⟩

/-- The empty memory state. -/
def emptyMem : MemState := ⟨[], [], []⟩

/-- An LLM endpoint whose every batch call fails (timeout / unparseable). -/
def respFail : ℕ → Option (List (String × JVal)) := fun _ => none

/-- An LLM response whose classification entry carries confidence 2. -/
def respConf2 : ℕ → Option (List (String × JVal)) := fun _ =>
  some [("classifications", JVal.jarr [JVal.jobj [("confidence", JVal.jnum 2)]])]

/-- A learned keyword rule matching `zx`. -/
def zxRule : Rule := ⟨"zx", "keyword", "Docs", "Fin", 10, 1⟩

/-- A memory state holding only `zxRule`. -/
def ruleMem : MemState := ⟨[zxRule], [], []⟩

/-- Configuration with threshold 1 and learning off. -/
def cfgNoLearn : Config := ⟨1, false, 15, "m"⟩

/-- Configuration with threshold 1 and learning on. -/
def cfgLearn : Config := ⟨1, true, 15, "m"⟩

/-- Configuration with threshold 0 and learning off. -/
def cfgZero : Config := ⟨0, false, 15, "m"⟩

theorem chunkList_single {α : Type} (n : ℕ) (x : α) : chunkList n [x] = [[x]] := by
  simp [chunkList]

theorem memoryPhase_empty_single (cfg : Config) :
    memoryPhaseResults cfg emptyMem [zxFile] = [] := by
  rw [memoryPhaseResults]
  simp [emptyMem, memDecision_empty, zxFile]

theorem llmPhase_empty_single (cfg : Config) :
    llmPhaseFiles cfg emptyMem [zxFile] = [zxFile] := by
  rw [llmPhaseFiles]
  simp [emptyMem, memDecision_empty, zxFile]

theorem classifyWithLLM_fail_single (cfg : Config) :
    classifyWithLLM cfg respFail [zxFile] = [errResult zxFile] := by
  rw [classifyWithLLM, chunkList_single]
  simp [respFail]

theorem classify_fail_empty_results (cfg : Config) :
    (classify cfg emptyMem respFail [zxFile]).1 = [errResult zxFile] := by
  simp only [classify, memoryPhase_empty_single, llmPhase_empty_single,
    classifyWithLLM_fail_single, List.nil_append, List.mergeSort_singleton]

theorem getMatchingRules_zx :
    getMatchingRules ruleMem.rules "zx.bin" ["zx"] ".bin" = [zxRule] := by
  rw [getMatchingRules]
  have hlow : strToLower ".bin" = ".bin" := by decide
  have hfn : strToLower "zx.bin" = "zx.bin" := by decide
  rw [hlow, hfn]
  have hfiltE : ruleMem.rules.filter (fun r =>
      decide (r.patternType = "extension" ∧ r.pattern = ".bin")) = [] := by decide
  have hfiltK : ruleMem.rules.filter (fun r =>
      decide (r.patternType = "keyword") && containsSub r.pattern.data "zx.bin".data) =
      [zxRule] := by decide
  rw [hfiltE]
  simp only [List.foldl_cons, List.foldl_nil, hfiltK]
  norm_num [sortRules, dedupRules]

/-- The rule-tier match produced for `zx.bin` against `ruleMem`. -/
noncomputable def zxMatch : MatchRes :=
  ⟨"Docs", "Fin", 0.6 + ((1 : ℕ) : ℝ) / 50 * 0.35, "rule", "匹配规则: keyword「zx」"⟩

theorem matchRules_zx : matchRules ruleMem "zx.bin" = some zxMatch := by
  rw [matchRules]
  have hkw : extractKeywords "zx.bin" = ["zx"] := by decide
  have hex : strToLower (extOf "zx.bin") = ".bin" := by decide
  rw [hkw, hex, getMatchingRules_zx]
  have hc : ¬(0.6 + ((zxRule.hitCount : ℕ) : ℝ) / 50 * 0.35 > 0.95) := by
    norm_num [zxRule]
  simp only [hc, if_neg, ite_false]
  rfl

theorem memQuery_of_matchRules_some {cfg : Config} {st : MemState} {fn : String}
    {m : MatchRes} (h : matchRules st fn = some m)
    (hθ : cfg.similarityThreshold ≤ m.confidence) : memQuery cfg st fn = some m := by
  rw [memQuery, h]
  exact if_pos hθ

theorem memDecision_of_memQuery_some {cfg : Config} {st : MemState} {f : FileInfo}
    {m : MatchRes} (h : memQuery cfg st f.name = some m)
    (hθ : cfg.similarityThreshold ≤ m.confidence) : memDecision cfg st f = some m := by
  rw [memDecision, h]
  exact if_pos hθ

theorem zxMatch_threshold : cfgZero.similarityThreshold ≤ zxMatch.confidence := by
  norm_num [cfgZero, zxMatch]

theorem classify_ruleMem_results :
    (classify cfgZero ruleMem respFail [zxFile]).1 = [memResult zxFile zxMatch] := by
  have hq : memQuery cfgZero ruleMem "zx.bin" = some zxMatch :=
    memQuery_of_matchRules_some matchRules_zx zxMatch_threshold
  have hdec : memDecision cfgZero ruleMem zxFile = some zxMatch :=
    memDecision_of_memQuery_some hq zxMatch_threshold
  have h1 : memoryPhaseResults cfgZero ruleMem [zxFile] = [memResult zxFile zxMatch] := by
    rw [memoryPhaseResults]
    rw [List.filterMap_cons]
    have : (if zxFile.isDir = true then none
        else Option.map (memResult zxFile) (memDecision cfgZero ruleMem zxFile)) =
        some (memResult zxFile zxMatch) := by
      rw [if_neg (by decide), hdec]
      rfl
    rw [this]
    rfl
  have h2 : llmPhaseFiles cfgZero ruleMem [zxFile] = [] := by
    rw [llmPhaseFiles]
    rw [List.filterMap_cons]
    have : (if zxFile.isDir = true then none
        else match memDecision cfgZero ruleMem zxFile with
          | some _ => none
          | none => some zxFile) = none := by
      rw [if_neg (by decide), hdec]
    rw [this]
    rfl
  have h3 : classifyWithLLM cfgZero respFail [] = [] := by
    rw [classifyWithLLM]
    simp [chunkList]
  simp only [classify, h1, h2, h3, List.append_nil, List.mergeSort_singleton]

/-- C4 counterexample: a file decided by the rule tier (the `Match` has source
`"rule"`) is emitted by `Classify` with source `"memory"`. -/
theorem rule_tier_emitted_as_memory_counterexample :
    ((memQuery cfgZero ruleMem "zx.bin").map (fun m => m.source) = some "rule") ∧
    ((classify cfgZero ruleMem respFail [zxFile]).1.map (fun r => r.source) = ["memory"]) ∧
    ("memory" : String) ≠ "rule" := by
  have hq : memQuery cfgZero ruleMem "zx.bin" = some zxMatch :=
    memQuery_of_matchRules_some matchRules_zx zxMatch_threshold
  refine ⟨by rw [hq]; rfl, ?_, by decide⟩
  rw [classify_ruleMem_results]
  rfl

/-- Witness for C4 at concrete inputs: the rule-tier match for `zx.bin` names tier
`"rule"`, and the emitted result for it is one of the three emitted sources. -/
theorem query_source_tier_result_source_memory_witness :
    (memQuery cfgZero ruleMem "zx.bin" = some zxMatch ∧
      (zxMatch.source = "rule" ∨ zxMatch.source = "vector" ∨ zxMatch.source = "history")) ∧
    (memResult zxFile zxMatch ∈ (classify cfgZero ruleMem respFail [zxFile]).1 ∧
      ((memResult zxFile zxMatch).source = "memory" ∨
        (memResult zxFile zxMatch).source = "llm" ∨
        (memResult zxFile zxMatch).source = "error")) := by
  have hq : memQuery cfgZero ruleMem "zx.bin" = some zxMatch :=
    memQuery_of_matchRules_some matchRules_zx zxMatch_threshold
  have hmem : memResult zxFile zxMatch ∈ (classify cfgZero ruleMem respFail [zxFile]).1 := by
    rw [classify_ruleMem_results]
    simp
  refine ⟨⟨hq, ?_⟩, hmem, ?_⟩
  · exact (query_source_tier_result_source_memory cfgZero ruleMem respFail [zxFile]).1
      "zx.bin" zxMatch hq
  · exact (query_source_tier_result_source_memory cfgZero ruleMem respFail [zxFile]).2
      _ hmem

/-- Witness for C3 at concrete inputs: the error result of a failed batch is emitted
with confidence inside `[0, 1]`, and the concrete rule-tier match is capped. -/
theorem classify_confidence_bounds_witness :
    (errResult zxFile ∈ (classify cfgNoLearn emptyMem respFail [zxFile]).1 ∧
      (errResult zxFile).source ≠ "llm" ∧
      0 ≤ (errResult zxFile).confidence ∧ (errResult zxFile).confidence ≤ 1) ∧
    (matchRules ruleMem "zx.bin" = some zxMatch ∧ zxMatch.source = "rule" ∧
      zxMatch.confidence ≤ 0.95) := by
  have hmem : errResult zxFile ∈ (classify cfgNoLearn emptyMem respFail [zxFile]).1 := by
    rw [classify_fail_empty_results]
    simp
  have hne : (errResult zxFile).source ≠ "llm" := by decide
  rcases (classify_confidence_bounds cfgNoLearn emptyMem respFail [zxFile]).1 _ hmem hne with
    ⟨hb0, hb1⟩
  rcases (classify_confidence_bounds cfgZero ruleMem respFail [zxFile]).2 "zx.bin" zxMatch
    matchRules_zx with ⟨hs, h95⟩
  exact ⟨⟨hmem, hne, hb0, hb1⟩, matchRules_zx, hs, h95⟩

/-- Witness for C2 at concrete inputs: with learning off the state is unchanged; with
learning on the error result of the failed batch has a written-back history row. -/
theorem llm_phase_written_back_iff_learning_witness :
    (cfgNoLearn.enableLearning = false ∧
      (classify cfgNoLearn emptyMem respFail [zxFile]).2 = emptyMem) ∧
    (cfgLearn.enableLearning = true ∧
      ∃ h ∈ (classify cfgLearn emptyMem respFail [zxFile]).2.history,
        h.filename = (errResult zxFile).file.name ∧
        h.category = (errResult zxFile).category ∧
        h.subcategory = (errResult zxFile).subcategory ∧
        h.confidence = (errResult zxFile).confidence ∧
        h.source = "llm" ∧ h.userConfirmed = false) := by
  constructor
  · exact ⟨rfl,
      (llm_phase_written_back_iff_learning cfgNoLearn emptyMem respFail [zxFile]).1 rfl⟩
  · refine ⟨rfl, ?_⟩
    have hmem : errResult zxFile ∈ classifyWithLLM cfgLearn respFail
        (llmPhaseFiles cfgLearn emptyMem [zxFile]) := by
      rw [llmPhase_empty_single, classifyWithLLM_fail_single]
      simp
    exact ((llm_phase_written_back_iff_learning cfgLearn emptyMem respFail [zxFile]).2 rfl
      (errResult zxFile) hmem).1

/-- C3 counterexample: an LLM payload entry with `confidence = 2` flows verbatim into
the emitted `Result`, which therefore leaves `[0, 1]`. -/
theorem llm_confidence_unclamped_counterexample :
    ((classify cfgNoLearn emptyMem respConf2 [zxFile]).1.map
      (fun r => (r.source, r.confidence)) = [("llm", (2 : ℝ))]) ∧
    ¬((2 : ℝ) ≤ 1) := by
  have h1 := memoryPhase_empty_single cfgNoLearn
  have h2 := llmPhase_empty_single cfgNoLearn
  have h3 : classifyWithLLM cfgNoLearn respConf2 [zxFile] =
      [mkLLMResult zxFile [("confidence", JVal.jnum 2)]] := by
    rw [classifyWithLLM, chunkList_single]
    simp [respConf2, jget]
  constructor
  · simp only [classify, h1, h2, h3, List.nil_append, List.mergeSort_singleton,
      List.map_cons, List.map_nil]
    simp [mkLLMResult, getFloat, jget]
  · norm_num

/-- C2 counterexample: with learning enabled, a failed tier-D batch for `zx.bin`
emits the per-file error result *and* writes a history row (source `"llm"`,
unconfirmed) and a vector row for it — the learned state is modified. -/
theorem tierD_failure_writes_learned_state_counterexample :
    ((classify cfgLearn emptyMem respFail [zxFile]).1.map (fun r => r.source) = ["error"]) ∧
    ((classify cfgLearn emptyMem respFail [zxFile]).2.history.map
      (fun h => (h.filename, h.source, h.userConfirmed)) = [("zx.bin", "llm", false)]) ∧
    ((classify cfgLearn emptyMem respFail [zxFile]).2.vectors.map (fun v => v.filename) =
      ["zx.bin"]) := by
  have h1 := memoryPhase_empty_single cfgLearn
  have h2 := llmPhase_empty_single cfgLearn
  have h3 := classifyWithLLM_fail_single cfgLearn
  refine ⟨?_, ?_, ?_⟩
  · simp only [classify, h1, h2, h3, List.nil_append, List.mergeSort_singleton]
    rfl
  · simp only [classify, h1, h2, h3]
    simp only [cfgLearn, if_pos, List.foldl_cons, List.foldl_nil]
    simp [learnStep, learn, errResult, zxFile, emptyMem]
  · simp only [classify, h1, h2, h3]
    simp only [cfgLearn, if_pos, List.foldl_cons, List.foldl_nil]
    simp [learnStep, learn, errResult, zxFile, emptyMem]

/-! ### Order preservation of `Classify` (P-6)

`Classify` visits `files` in scan order, emits memory-phase hits in that order,
defers the misses in that order, chunks them, and finally stable-sorts all results
by the `order` map `path ↦ scan index`.  We show that the emitted path sequence is
a subsequence of the non-directory input path sequence. -/

theorem map_filterMap_sublist {α β γ : Type} (g : α → Option β) (h : β → γ) (k : α → γ)
    (hg : ∀ a b, g a = some b → h b = k a) :
    ∀ l : List α, ((l.filterMap g).map h).Sublist (l.map k) := by
  intro l
  induction l with
  | nil => simp
  | cons a l ih =>
    rw [List.filterMap_cons]
    cases hga : g a with
    | none =>
      dsimp only
      rw [List.map_cons]
      exact ih.cons (k a)
    | some b =>
      dsimp only
      rw [List.map_cons, List.map_cons, hg a b hga]
      exact ih.cons₂ (k a)

theorem zip_map_snd_sublist {α γ δ : Type} (h : α → δ) :
    ∀ (l1 : List γ) (l2 : List α),
      ((l1.zip l2).map (fun q => h q.2)).Sublist (l2.map h) := by
  intro l1 l2
  induction l2 generalizing l1 with
  | nil => simp
  | cons a t ih =>
    cases l1 with
    | nil => simp
    | cons c l1 =>
      rw [List.zip_cons_cons, List.map_cons, List.map_cons]
      exact (ih l1).cons₂ (h a)

theorem filterMap_eq_filterMap_filter {α β : Type} (p : α → Bool) (g : α → Option β)
    (hg : ∀ a, p a = false → g a = none) :
    ∀ l : List α, l.filterMap g = (l.filter p).filterMap g := by
  intro l
  induction l with
  | nil => rfl
  | cons a l ih =>
    cases hpa : p a with
    | false =>
      simp only [List.filter_cons, hpa, Bool.false_eq_true, if_false]
      rw [List.filterMap_cons, hg a hpa]
      exact ih
    | true =>
      simp only [List.filter_cons, hpa, if_true]
      rw [List.filterMap_cons, List.filterMap_cons]
      cases g a <;> dsimp only <;> rw [ih]

theorem filterMap_sublist_self {α : Type} (g : α → Option α)
    (hg : ∀ a b, g a = some b → b = a) :
    ∀ l : List α, (l.filterMap g).Sublist l := by
  intro l
  induction l with
  | nil => simp
  | cons a l ih =>
    rw [List.filterMap_cons]
    cases hga : g a with
    | none =>
      dsimp only
      exact ih.cons a
    | some b =>
      dsimp only
      rw [hg a b hga]
      exact ih.cons₂ a

theorem chunkList_flatten {α : Type} (n : ℕ) (l : List α) :
    (chunkList n l).flatten = l := by
  have key : ∀ (m : ℕ) (l : List α), l.length ≤ m → (chunkList n l).flatten = l := by
    intro m
    induction m with
    | zero =>
      intro l hl
      rw [Nat.le_zero, List.length_eq_zero] at hl
      subst hl
      simp [chunkList]
    | succ m ih =>
      intro l hl
      cases l with
      | nil => simp [chunkList]
      | cons x xs =>
        have hstep : chunkList n (x :: xs) =
            (x :: xs.take (n - 1)) :: chunkList n (xs.drop (n - 1)) := by
          simp only [chunkList]
        have hlen : (xs.drop (n - 1)).length ≤ m := by
          rw [List.length_drop]
          simp only [List.length_cons] at hl
          omega
        rw [hstep, List.flatten_cons, ih (xs.drop (n - 1)) hlen,
          List.cons_append, List.take_append_drop]
  exact key l.length l le_rfl

theorem flatMap_enumFrom_sublist {α β γ : Type} (F : ℕ × List α → List β) (h : β → γ)
    (k : α → γ) (hF : ∀ q : ℕ × List α, ((F q).map h).Sublist (q.2.map k)) :
    ∀ (chunks : List (List α)) (i : ℕ),
      (((List.enumFrom i chunks).flatMap F).map h).Sublist (chunks.flatten.map k) := by
  intro chunks
  induction chunks with
  | nil => intro i; simp
  | cons c cs ih =>
    intro i
    rw [List.enumFrom_cons, List.flatMap_cons, List.map_append, List.flatten_cons,
      List.map_append]
    exact (hF (i, c)).append (ih (i + 1))

theorem classifyWithLLM_paths_sublist (cfg : Config)
    (resps : ℕ → Option (List (String × JVal))) (L : List FileInfo) :
    ((classifyWithLLM cfg resps L).map (fun r => r.file.path)).Sublist
      (L.map (fun f => f.path)) := by
  have hF : ∀ q : ℕ × List FileInfo,
      (((fun kb : ℕ × List FileInfo =>
        (match resps kb.1 with
        | none => kb.2.map errResult
        | some resp =>
          let classifications :=
            match jget resp "classifications" with
            | some (.jarr l) => l
            | _ => []
          (classifications.zip kb.2).filterMap (fun cf : JVal × FileInfo =>
            match cf.1 with
            | .jobj cm => some (mkLLMResult cf.2 cm)
            | _ => none) : List Result)) q).map (fun r : Result => r.file.path)).Sublist
        (q.2.map (fun f : FileInfo => f.path)) := by
    rintro ⟨i, batch⟩
    dsimp only
    cases hresp : resps i with
    | none =>
      rw [List.map_map]
      exact List.Sublist.refl _
    | some resp =>
      refine List.Sublist.trans ?_ (zip_map_snd_sublist (fun f : FileInfo => f.path)
        (match jget resp "classifications" with
         | some (.jarr l) => l
         | _ => []) batch)
      refine map_filterMap_sublist
        (fun cf : JVal × FileInfo =>
          match cf.1 with
          | .jobj cm => some (mkLLMResult cf.2 cm)
          | _ => none)
        (fun r : Result => r.file.path) (fun q : JVal × FileInfo => q.2.path) ?_ _
      rintro ⟨v, f⟩ r hvf
      cases v with
      | jobj cm =>
        dsimp only at hvf
        rw [← Option.some.inj hvf]
        rfl
      | jstr s => exact absurd hvf (by simp)
      | jnum x => exact absurd hvf (by simp)
      | jbool b => exact absurd hvf (by simp)
      | jnull => exact absurd hvf (by simp)
      | jarr l => exact absurd hvf (by simp)
  have h1 := flatMap_enumFrom_sublist _ (fun r : Result => r.file.path)
    (fun f : FileInfo => f.path) hF (chunkList cfg.batchSize L) 0
  rw [chunkList_flatten] at h1
  exact h1

theorem memoryPhase_paths_sublist (cfg : Config) (st : MemState) (files : List FileInfo) :
    ((memoryPhaseResults cfg st files).map (fun r => r.file.path)).Sublist
      ((files.filter (fun f => !f.isDir)).map (fun f => f.path)) := by
  have hnone : ∀ f : FileInfo, (!f.isDir) = false →
      (if f.isDir then none else (memDecision cfg st f).map (memResult f)) = none := by
    intro f hf
    have hd : f.isDir = true := by simpa using hf
    rw [if_pos hd]
  rw [memoryPhaseResults, filterMap_eq_filterMap_filter (fun f => !f.isDir) _ hnone files]
  refine map_filterMap_sublist _ _ _ ?_ _
  intro f r hfr
  by_cases hd : f.isDir = true
  · rw [if_pos hd] at hfr
    exact absurd hfr (by simp)
  · rw [if_neg hd] at hfr
    rcases Option.map_eq_some'.mp hfr with ⟨m, _, hm⟩
    rw [← hm]
    rfl

theorem llmPhaseFiles_sublist (cfg : Config) (st : MemState) (files : List FileInfo) :
    (llmPhaseFiles cfg st files).Sublist (files.filter (fun f => !f.isDir)) := by
  have hnone : ∀ f : FileInfo, (!f.isDir) = false →
      (if f.isDir then none
       else
         match memDecision cfg st f with
         | some _ => none
         | none => some f) = none := by
    intro f hf
    have hd : f.isDir = true := by simpa using hf
    rw [if_pos hd]
  rw [llmPhaseFiles, filterMap_eq_filterMap_filter (fun f => !f.isDir) _ hnone files]
  refine filterMap_sublist_self _ ?_ _
  intro f f' hff
  by_cases hd : f.isDir = true
  · rw [if_pos hd] at hff
    exact absurd hff (by simp)
  · rw [if_neg hd] at hff
    cases hdec : memDecision cfg st f with
    | some m =>
      rw [hdec] at hff
      exact absurd hff (by simp)
    | none =>
      rw [hdec] at hff
      exact (Option.some.inj hff).symm

theorem mem_llmPhaseFiles {cfg : Config} {st : MemState} {files : List FileInfo}
    {f' : FileInfo} (h : f' ∈ llmPhaseFiles cfg st files) :
    f' ∈ files ∧ memDecision cfg st f' = none := by
  rw [llmPhaseFiles] at h
  rcases List.mem_filterMap.mp h with ⟨f, hf, hsome⟩
  by_cases hd : f.isDir = true
  · rw [if_pos hd] at hsome
    exact absurd hsome (by simp)
  · rw [if_neg hd] at hsome
    cases hdec : memDecision cfg st f with
    | some m =>
      rw [hdec] at hsome
      exact absurd hsome (by simp)
    | none =>
      rw [hdec] at hsome
      have hfe : f = f' := Option.some.inj hsome
      subst hfe
      exact ⟨hf, hdec⟩

theorem ordFold_cons (x : ℕ × FileInfo) (l : List (ℕ × FileInfo)) (acc : ℕ) (p : String) :
    ordFold (x :: l) acc p = ordFold l (if x.2.path = p then x.1 else acc) p := rfl

theorem snd_mem_of_mem_enumFrom {α : Type} {l : List α} {n : ℕ} {q : ℕ × α}
    (hq : q ∈ List.enumFrom n l) : q.2 ∈ l := by
  have h1 := List.mem_map_of_mem Prod.snd hq
  rwa [List.enumFrom_map_snd] at h1

theorem ordFold_of_not_mem :
    ∀ (l : List (ℕ × FileInfo)) (acc : ℕ) (p : String),
      (∀ q ∈ l, q.2.path ≠ p) → ordFold l acc p = acc := by
  intro l
  induction l with
  | nil => intro acc p _; rfl
  | cons x l ih =>
    intro acc p hl
    rw [ordFold_cons, if_neg (hl x (List.mem_cons_self x l))]
    exact ih acc p (fun q hq => hl q (List.mem_cons_of_mem x hq))

theorem ordFold_enumFrom_ge (p : String) :
    ∀ (l : List FileInfo) (n acc : ℕ), (∃ f ∈ l, f.path = p) →
      n ≤ ordFold (List.enumFrom n l) acc p := by
  intro l
  induction l with
  | nil =>
    intro n acc h
    rcases h with ⟨f, hf, _⟩
    exact absurd hf (List.not_mem_nil f)
  | cons f t ih =>
    intro n acc h
    rw [List.enumFrom_cons, ordFold_cons]
    by_cases hmem : ∃ g ∈ t, g.path = p
    · exact le_trans (Nat.le_succ n) (ih (n + 1) _ hmem)
    · have hne : ∀ q ∈ List.enumFrom (n + 1) t, q.2.path ≠ p := by
        intro q hq hqp
        exact hmem ⟨q.2, snd_mem_of_mem_enumFrom hq, hqp⟩
      rw [ordFold_of_not_mem _ _ _ hne]
      rcases h with ⟨g, hg, hgp⟩
      rcases List.mem_cons.mp hg with hgf | hgt
      · have hfp : (n, f).2.path = p := by rw [← hgf]; exact hgp
        rw [if_pos hfp]
      · exact absurd ⟨g, hgt, hgp⟩ hmem

theorem pairwise_ordFold_lt :
    ∀ (l : List FileInfo) (n acc : ℕ),
      (l.map (fun f => f.path)).Nodup →
      (l.map (fun f => f.path)).Pairwise
        (fun p q => ordFold (List.enumFrom n l) acc p < ordFold (List.enumFrom n l) acc q) := by
  intro l
  induction l with
  | nil => intro n acc _; simp
  | cons f t ih =>
    intro n acc hnd
    rw [List.map_cons, List.nodup_cons] at hnd
    obtain ⟨hfp, hndt⟩ := hnd
    rw [List.map_cons, List.pairwise_cons]
    constructor
    · intro q hq
      have hqne : q ≠ f.path := fun h => hfp (h ▸ hq)
      simp only [List.enumFrom_cons, ordFold_cons]
      rw [if_pos trivial, if_neg (fun h : f.path = q => hqne h.symm)]
      have hval1 : ordFold (List.enumFrom (n + 1) t) n f.path = n := by
        apply ordFold_of_not_mem
        intro r hr hrp
        exact hfp (hrp ▸ List.mem_map_of_mem (fun f => f.path) (snd_mem_of_mem_enumFrom hr))
      have hval2 : n + 1 ≤ ordFold (List.enumFrom (n + 1) t) acc q := by
        apply ordFold_enumFrom_ge
        rcases List.mem_map.mp hq with ⟨g, hg, hgq⟩
        exact ⟨g, hg, hgq⟩
      rw [hval1]
      omega
    · have hpt := ih (n + 1) acc hndt
      refine hpt.imp_of_mem ?_
      intro p q hp hq hpq
      have hpne : p ≠ f.path := fun h => hfp (h ▸ hp)
      have hqne : q ≠ f.path := fun h => hfp (h ▸ hq)
      simp only [List.enumFrom_cons, ordFold_cons]
      rw [if_neg (fun h : f.path = p => hpne h.symm),
        if_neg (fun h : f.path = q => hqne h.symm)]
      exact hpq

theorem inj_of_pairwise_lt {β : Type} {k : β → ℕ} {l : List β}
    (h : l.Pairwise (fun a b => k a < k b)) :
    ∀ a ∈ l, ∀ b ∈ l, k a = k b → a = b := by
  rw [List.pairwise_iff_getElem] at h
  intro a ha b hb hk
  rcases List.mem_iff_getElem.mp ha with ⟨i, hi, hia⟩
  rcases List.mem_iff_getElem.mp hb with ⟨j, hj, hjb⟩
  rcases Nat.lt_trichotomy i j with hij | hij | hij
  · have := h i j hi hj hij
    rw [hia, hjb, hk] at this
    exact absurd this (lt_irrefl _)
  · subst hij
    exact hia.symm.trans hjb
  · have := h j i hj hi hij
    rw [hia, hjb, hk] at this
    exact absurd this (lt_irrefl _)

theorem sublist_of_pairwise_lt_subset {β : Type} (k : β → ℕ) :
    ∀ (t s : List β), s.Pairwise (fun a b => k a < k b) →
      t.Pairwise (fun a b => k a < k b) → (∀ x ∈ s, x ∈ t) → s.Sublist t := by
  intro t
  induction t with
  | nil =>
    intro s _ _ hsub
    cases s with
    | nil => exact List.Sublist.refl []
    | cons a s => exact absurd (hsub a (List.mem_cons_self a s)) (List.not_mem_nil a)
  | cons b t ih =>
    intro s hs ht hsub
    cases s with
    | nil => exact List.nil_sublist (b :: t)
    | cons a s =>
      by_cases hab : a = b
      · subst hab
        refine (ih s hs.of_cons ht.of_cons ?_).cons₂ a
        intro x hx
        rcases List.mem_cons.mp (hsub x (List.mem_cons_of_mem a hx)) with hxa | hxt
        · have h1 := List.rel_of_pairwise_cons hs hx
          rw [hxa] at h1
          exact absurd h1 (lt_irrefl _)
        · exact hxt
      · have hat : a ∈ t := by
          rcases List.mem_cons.mp (hsub a (List.mem_cons_self a s)) with h | h
          · exact absurd h hab
          · exact h
        have hba : k b < k a := List.rel_of_pairwise_cons ht hat
        refine (ih (a :: s) hs ht.of_cons ?_).cons b
        intro x hx
        rcases List.mem_cons.mp (hsub x hx) with hxb | hxt
        · exfalso
          rcases List.mem_cons.mp hx with hxa | hxs
          · exact hab (hxa.symm.trans hxb)
          · have h1 := List.rel_of_pairwise_cons hs hxs
            rw [hxb] at h1
            exact Nat.lt_asymm hba h1
        · exact hxt

theorem memoryPhase_llmPhase_paths_disjoint {cfg : Config} {st : MemState}
    {resps : ℕ → Option (List (String × JVal))} {files : List FileInfo}
    (hnd : (files.map (fun f => f.path)).Nodup) :
    ∀ p, p ∈ (memoryPhaseResults cfg st files).map (fun r => r.file.path) →
      p ∈ (classifyWithLLM cfg resps (llmPhaseFiles cfg st files)).map
        (fun r => r.file.path) → False := by
  intro p hpm hpl
  rcases List.mem_map.mp hpm with ⟨r, hr, hrp⟩
  rcases mem_memoryPhase hr with ⟨f, hf, m, hdec, hrq, _⟩
  rcases List.mem_map.mp hpl with ⟨r', hr', hpath⟩
  have hr'sub : r'.file.path ∈ (llmPhaseFiles cfg st files).map (fun f => f.path) :=
    (classifyWithLLM_paths_sublist cfg resps (llmPhaseFiles cfg st files)).subset
      (List.mem_map_of_mem (fun r : Result => r.file.path) hr')
  rcases List.mem_map.mp hr'sub with ⟨f', hf', hpath'⟩
  obtain ⟨hf'mem, hf'dec⟩ := mem_llmPhaseFiles hf'
  have h1 : r.file.path = f.path := by rw [hrq, memResult]
  have hpp : f.path = f'.path := by rw [← h1, hrp, ← hpath, hpath']
  have hff : f = f' := List.inj_on_of_nodup_map hnd hf hf'mem hpp
  rw [hff, hf'dec] at hdec
  exact Option.noConfusion hdec

/-- C9: for every input list of files with pairwise-distinct paths, the path
sequence of the results of `Classify` is a subsequence of the path sequence of the
non-directory input files — the results keep the input's relative order, with
directory entries removed. -/
theorem classify_order_preservation (cfg : Config) (st : MemState)
    (resps : ℕ → Option (List (String × JVal))) (files : List FileInfo)
    (hnd : (files.map (fun f => f.path)).Nodup) :
    (((classify cfg st resps files).1).map (fun r => r.file.path)).Sublist
      ((files.filter (fun f => !f.isDir)).map (fun f => f.path)) := by
  have hpw : ((files.filter (fun f => !f.isDir)).map (fun f => f.path)).Pairwise
      (fun p q => orderIdx files p < orderIdx files q) := by
    have h0 := pairwise_ordFold_lt files 0 0 hnd
    have hsub : ((files.filter (fun f => !f.isDir)).map (fun f => f.path)).Sublist
        (files.map (fun f => f.path)) :=
      (List.filter_sublist files).map (fun f => f.path)
    exact List.Pairwise.sublist hsub h0
  have hmemS := memoryPhase_paths_sublist cfg st files
  have hllmfS : ((llmPhaseFiles cfg st files).map (fun f => f.path)).Sublist
      ((files.filter (fun f => !f.isDir)).map (fun f => f.path)) :=
    (llmPhaseFiles_sublist cfg st files).map (fun f => f.path)
  have hllmS : ((classifyWithLLM cfg resps (llmPhaseFiles cfg st files)).map
      (fun r => r.file.path)).Sublist
      ((files.filter (fun f => !f.isDir)).map (fun f => f.path)) :=
    (classifyWithLLM_paths_sublist cfg resps _).trans hllmfS
  have hbasend : ((files.filter (fun f => !f.isDir)).map (fun f => f.path)).Nodup :=
    List.Nodup.sublist ((List.filter_sublist files).map (fun f => f.path)) hnd
  have hcomb : ((memoryPhaseResults cfg st files ++
      classifyWithLLM cfg resps (llmPhaseFiles cfg st files)).map
        (fun r => r.file.path)).Nodup := by
    rw [List.map_append]
    exact List.Nodup.append (List.Nodup.sublist hmemS hbasend)
      (List.Nodup.sublist hllmS hbasend)
      (fun p hp hq => memoryPhase_llmPhase_paths_disjoint hnd p hp hq)
  have hsorted : ((classify cfg st resps files).1).Pairwise
      (fun a b => (decide (orderIdx files a.file.path ≤ orderIdx files b.file.path))
        = true) := by
    simp only [classify]
    exact List.sorted_mergeSort
      (fun a b c hab hbc => by
        simp only [decide_eq_true_eq] at hab hbc ⊢
        omega)
      (fun a b => by
        simp only [Bool.or_eq_true, decide_eq_true_eq]
        omega) _
  have hperm : (((classify cfg st resps files).1).map (fun r => r.file.path)).Perm
      ((memoryPhaseResults cfg st files ++
        classifyWithLLM cfg resps (llmPhaseFiles cfg st files)).map
          (fun r => r.file.path)) := by
    simp only [classify]
    exact (List.mergeSort_perm _ _).map (fun r : Result => r.file.path)
  have hrnd : (((classify cfg st resps files).1).map (fun r => r.file.path)).Nodup :=
    hperm.nodup_iff.mpr hcomb
  have hrsub : ∀ p ∈ ((classify cfg st resps files).1).map (fun r => r.file.path),
      p ∈ (files.filter (fun f => !f.isDir)).map (fun f => f.path) := by
    intro p hp
    have hp2 := hperm.mem_iff.mp hp
    rw [List.map_append] at hp2
    rcases List.mem_append.mp hp2 with h | h
    · exact hmemS.subset h
    · exact hllmS.subset h
  have hle : (((classify cfg st resps files).1).map (fun r => r.file.path)).Pairwise
      (fun p q => orderIdx files p ≤ orderIdx files q) := by
    rw [List.pairwise_map]
    exact hsorted.imp (fun hab => of_decide_eq_true hab)
  have hlt : (((classify cfg st resps files).1).map (fun r => r.file.path)).Pairwise
      (fun p q => orderIdx files p < orderIdx files q) := by
    refine (hle.and hrnd).imp_of_mem ?_
    intro p q hp hq hpq
    rcases hpq with ⟨hle', hne⟩
    rcases Nat.lt_or_ge (orderIdx files p) (orderIdx files q) with h | h
    · exact h
    · exact absurd (inj_of_pairwise_lt hpw p (hrsub p hp) q (hrsub q hq)
        (le_antisymm hle' h)) hne
  exact sublist_of_pairwise_lt_subset (orderIdx files) _ _ hlt hpw hrsub

/-- C9 witness: the order-preservation theorem instantiated at the one-file
fixture, with the distinct-paths hypothesis discharged by evaluation. -/
theorem classify_order_preservation_witness :
    (List.map (fun f => f.path) [zxFile]).Nodup ∧
      (((classify cfgNoLearn emptyMem respFail [zxFile]).1).map
          (fun r => r.file.path)).Sublist
        (([zxFile].filter (fun f => !f.isDir)).map (fun f => f.path)) :=
  ⟨by simp, classify_order_preservation cfgNoLearn emptyMem respFail [zxFile] (by simp)⟩

/-! ### The undo command (`cmd/undo.go`)

The op-log table is a list of rows in `id` order (rows are inserted with
auto-increment ids, so list order is `ORDER BY id ASC`).  The filesystem is
abstracted as the list of existing file paths: `os.Stat` is membership,
`os.Rename` removes the source path and adds the target path (`MkdirAll` and
`Rename` themselves are assumed to succeed — the interesting failure handled
by the code, a missing `dest_path`, is the membership test).  The confirmation
prompt is modelled as answered `yes`; `cleanEmptyDirs` only removes empty
directories and does not touch the file set. -/

/-- An `operation_logs` row (`CreatedAt` is never read by undo). -/
structure OpLog where
  id : ℕ
  batchId : String
  sourcePath : String
  destPath : String
  filename : String
  category : String
  subcategory : String
  status : String
  deriving DecidableEq

/-- `GetBatchLogs`: the `status = 'success'` rows of the batch, in id order. -/
def getBatchLogs (table : List OpLog) (batchId : String) : List OpLog :=
  table.filter (fun l => decide (l.batchId = batchId) && decide (l.status = "success"))

/-- `MarkBatchUndone`: one `UPDATE` setting `status = 'undone'` on every row of
the batch. -/
def markBatchUndone (table : List OpLog) (batchId : String) : List OpLog :=
  table.map (fun l => if l.batchId = batchId then { l with status := "undone" } else l)

/-- The candidate restore name `fmt.Sprintf("%s_restored_%d%s", base, i, ext)`. -/
def restoredName (base ext : String) (i : ℕ) : String :=
  base ++ "_restored_" ++ natStr i ++ ext

theorem restoredName_injective (base ext : String) :
    Function.Injective (restoredName base ext) := by
  intro i j hij
  have hd : (restoredName base ext i).data = (restoredName base ext j).data := by rw [hij]
  simp only [restoredName, String.data_append] at hd
  have h1 := List.append_cancel_right hd
  have h2 := List.append_cancel_left h1
  exact natStr_injective (String.ext h2)

/-- In any finite set of paths some `_restored_i` name with `i ≥ 1` is free:
there are more candidate names than paths. -/
theorem restored_exists (fs : List String) (base ext : String) :
    ∃ i, 0 < i ∧ restoredName base ext i ∉ fs := by
  by_contra hcon
  push_neg at hcon
  have hsub : (Finset.Icc 1 (fs.length + 1)).image (restoredName base ext) ⊆
      fs.toFinset := by
    intro x hx
    rcases Finset.mem_image.mp hx with ⟨i, hi, hxi⟩
    have h1 : 0 < i := by
      have := (Finset.mem_Icc.mp hi).1
      omega
    exact List.mem_toFinset.mpr (hxi ▸ hcon i h1)
  have hc1 : ((Finset.Icc 1 (fs.length + 1)).image (restoredName base ext)).card =
      fs.length + 1 := by
    rw [Finset.card_image_of_injOn ((restoredName_injective base ext).injOn),
      Nat.card_Icc]
    omega
  have hc2 := List.toFinset_card_le fs
  have hc3 := Finset.card_le_card hsub
  omega

/-- The target path of one restore: `source_path` itself when it is free, else the
first free `_restored_i` sibling, probing `i = 1, 2, …`. -/
def restoredTarget (fs : List String) (d : String) : String :=
  if d ∈ fs then
    restoredName (stripExt d) (extOf d)
      (Nat.find (restored_exists fs (stripExt d) (extOf d)))
  else d

theorem restoredTarget_spec (fs : List String) (d : String) :
    (d ∉ fs → restoredTarget fs d = d) ∧
    (d ∈ fs → ∃ i, 0 < i ∧
      restoredTarget fs d = restoredName (stripExt d) (extOf d) i ∧
      restoredName (stripExt d) (extOf d) i ∉ fs ∧
      ∀ j, 0 < j → j < i → restoredName (stripExt d) (extOf d) j ∈ fs) := by
  constructor
  · intro hd
    rw [restoredTarget, if_neg hd]
  · intro hd
    rw [restoredTarget, if_pos hd]
    refine ⟨Nat.find (restored_exists fs (stripExt d) (extOf d)),
      (Nat.find_spec (restored_exists fs (stripExt d) (extOf d))).1, rfl,
      (Nat.find_spec (restored_exists fs (stripExt d) (extOf d))).2, ?_⟩
    intro j hj0 hji
    have hmin := Nat.find_min (restored_exists fs (stripExt d) (extOf d)) hji
    push_neg at hmin
    exact hmin hj0

/-- The restore pass of `undoBatch`: for each log in order, a log whose
`dest_path` no longer exists is skipped with an error; otherwise the file is
renamed from `dest_path` to the (possibly `_restored_i`) target.  Returns the
final file set and the success count. -/
def undoPass : List String → List OpLog → List String × ℕ
  | fs, [] => (fs, 0)
  | fs, lg :: rest =>
    if lg.destPath ∈ fs then
      ((undoPass (fs.erase lg.destPath ++ [restoredTarget fs lg.sourcePath]) rest).1,
       (undoPass (fs.erase lg.destPath ++ [restoredTarget fs lg.sourcePath]) rest).2 + 1)
    else undoPass fs rest

/-- `undoBatch`: fetch the success logs (early error return when there are none),
run the pass, and mark the batch undone only when at least one file was moved. -/
def undoBatch (table : List OpLog) (fs : List String) (batchId : String) :
    List OpLog × List String :=
  if getBatchLogs table batchId = [] then (table, fs)
  else
    ((if 0 < (undoPass fs (getBatchLogs table batchId)).2
      then markBatchUndone table batchId else table),
     (undoPass fs (getBatchLogs table batchId)).1)

theorem undoPass_zero : ∀ (logs : List OpLog) (fs : List String),
    (undoPass fs logs).2 = 0 → (undoPass fs logs).1 = fs := by
  intro logs
  induction logs with
  | nil => intro fs _; rfl
  | cons lg rest ih =>
    intro fs h
    by_cases hd : lg.destPath ∈ fs
    · rw [undoPass, if_pos hd] at h
      omega
    · rw [undoPass, if_neg hd] at h ⊢
      exact ih fs h

theorem getBatchLogs_markBatchUndone (table : List OpLog) (b : String) :
    getBatchLogs (markBatchUndone table b) b = [] := by
  rw [getBatchLogs, markBatchUndone, List.filter_map, List.filter_eq_nil_iff.mpr,
    List.map_nil]
  intro l _
  by_cases hb : l.batchId = b
  · simp [Function.comp, if_pos hb]
  · simp [Function.comp, if_neg hb, hb]

/-- C5 amended: for an undo of a batch, each `status="success"` log whose
`dest_path` still exists is renamed back to `source_path` — or, when
`source_path` is occupied, to the first collision-free `_restored_N` sibling
(`N ≥ 1`, all smaller candidates occupied); logs with a missing `dest_path` are
skipped.  The batch is marked undone in one update covering its op-log rows
*only when at least one file was moved* (with zero restores the table is left
unchanged), and re-running undo on the same batch reaches the same table and
file-set state while performing no file renames. -/
theorem undo_batch_restore_mark_rerun (table : List OpLog) (fs : List String)
    (b : String) :
    (∀ (g : List String) (d : String),
      (d ∉ g → restoredTarget g d = d) ∧
      (d ∈ g → ∃ i, 0 < i ∧
        restoredTarget g d = restoredName (stripExt d) (extOf d) i ∧
        restoredName (stripExt d) (extOf d) i ∉ g ∧
        ∀ j, 0 < j → j < i → restoredName (stripExt d) (extOf d) j ∈ g)) ∧
    (∀ (g : List String) (lg : OpLog) (rest : List OpLog),
      (lg.destPath ∈ g →
        undoPass g (lg :: rest) =
          ((undoPass (g.erase lg.destPath ++ [restoredTarget g lg.sourcePath]) rest).1,
           (undoPass (g.erase lg.destPath ++
             [restoredTarget g lg.sourcePath]) rest).2 + 1)) ∧
      (lg.destPath ∉ g → undoPass g (lg :: rest) = undoPass g rest)) ∧
    (0 < (undoPass fs (getBatchLogs table b)).2 →
      (undoBatch table fs b).1 = markBatchUndone table b ∧
      getBatchLogs (undoBatch table fs b).1 b = []) ∧
    ((undoPass fs (getBatchLogs table b)).2 = 0 → (undoBatch table fs b).1 = table) ∧
    undoBatch (undoBatch table fs b).1 (undoBatch table fs b).2 b =
      undoBatch table fs b := by
  have hnil0 : getBatchLogs table b = [] → (undoPass fs (getBatchLogs table b)).2 = 0 := by
    intro h
    rw [h]
    rfl
  refine ⟨fun g d => restoredTarget_spec g d, ?_, ?_, ?_, ?_⟩
  · intro g lg rest
    constructor
    · intro hd
      rw [undoPass, if_pos hd]
    · intro hd
      rw [undoPass, if_neg hd]
  · intro hs
    have hne : getBatchLogs table b ≠ [] := by
      intro h
      rw [hnil0 h] at hs
      exact absurd hs (lt_irrefl 0)
    constructor
    · rw [undoBatch, if_neg hne, if_pos hs]
    · rw [undoBatch, if_neg hne, if_pos hs]
      exact getBatchLogs_markBatchUndone table b
  · intro hz
    by_cases hne : getBatchLogs table b = []
    · rw [undoBatch, if_pos hne]
    · rw [undoBatch, if_neg hne, if_neg (by omega)]
  · by_cases hne : getBatchLogs table b = []
    · have h1 : undoBatch table fs b = (table, fs) := by rw [undoBatch, if_pos hne]
      rw [h1]
      exact h1
    · by_cases hs : 0 < (undoPass fs (getBatchLogs table b)).2
      · have h1 : (undoBatch table fs b).1 = markBatchUndone table b := by
          rw [undoBatch, if_neg hne, if_pos hs]
        have hempty : getBatchLogs (undoBatch table fs b).1 b = [] := by
          rw [h1]
          exact getBatchLogs_markBatchUndone table b
        rw [undoBatch, if_pos hempty]
      · have hz : (undoPass fs (getBatchLogs table b)).2 = 0 := by omega
        have h1 : undoBatch table fs b = (table, fs) := by
          rw [undoBatch, if_neg hne, if_neg hs, undoPass_zero _ _ hz]
        rw [h1]
        exact h1

/-- The one-row op-log fixture for the C5 counterexample: a `success` log whose
destination file no longer exists. -/
def cx5Log : OpLog := ⟨1, "B1", "/src/a.txt", "/dst/a.txt", "a.txt", "Docs", "Fin", "success"⟩

/-- C5 counterexample: the batch has an op-log row (`GetBatchLogs` returns it),
but its `dest_path` is gone, so the pass restores nothing and `MarkBatchUndone`
is never called — after the undo the batch's row still has status `"success"`,
not `"undone"` as the claimed unconditional marking would give
(`markBatchUndone` would have set it to `"undone"`). -/
theorem undo_missing_dest_not_marked_counterexample :
    getBatchLogs [cx5Log] "B1" = [cx5Log] ∧
    (undoBatch [cx5Log] [] "B1").1 = [cx5Log] ∧
    [cx5Log].map (fun l => l.status) = ["success"] ∧
    (markBatchUndone [cx5Log] "B1").map (fun l => l.status) = ["undone"] := by
  refine ⟨rfl, rfl, rfl, rfl⟩

/-- The one-row op-log fixture for the C5 witness: a `success` log whose
destination file still exists. -/
def w5Log : OpLog := ⟨1, "B2", "/s/a.txt", "/d/a.txt", "a.txt", "Docs", "Fin", "success"⟩

/-- C5 witness: the amended theorem instantiated at a batch with one restorable
log; the success-count hypothesis of the marking conjunct is discharged by
evaluation. -/
theorem undo_batch_restore_mark_rerun_witness :
    0 < (undoPass ["/d/a.txt"] (getBatchLogs [w5Log] "B2")).2 ∧
      ((undoBatch [w5Log] ["/d/a.txt"] "B2").1 = markBatchUndone [w5Log] "B2" ∧
       getBatchLogs (undoBatch [w5Log] ["/d/a.txt"] "B2").1 "B2" = []) :=
  ⟨by decide,
   (undo_batch_restore_mark_rerun [w5Log] ["/d/a.txt"] "B2").2.2.1 (by decide)⟩

/-! ### Process exit codes (`main` → `cmd.Execute` → `runOrganize`)

`main` only calls `cmd.Execute()`.  `Execute` calls `os.Exit(1)` when cobra's
command parsing fails and otherwise returns, letting `main` fall off the end
with exit code 0.  `runOrganize` handles every error condition with a plain
`return` (after printing), and the `ExecuteResult` returned by
`organizer.Execute` — which counts failed moves — is discarded.  The
environment observed by one `runOrganize` run is abstracted into a record of
the branch conditions, in the order the code tests them. -/

/-- The branch conditions of one `runOrganize` run, in source order. -/
structure OrgEnv where
  argsEmpty : Bool
  sourceDirExists : Bool
  ollamaAvailable : Bool
  modelInstalled : Bool
  scanOk : Bool
  fileCount : ℕ
  classifierOk : Bool
  dryRun : Bool
  confirmed : Bool
  moveSuccess : ℕ
  moveErrors : ℕ
  deriving DecidableEq

/-- How one `runOrganize` run ends (each early `return` and the final paths). -/
inductive RunOutcome where
  | helpShown
  | dirMissing
  | serviceUnavailable
  | modelMissing
  | scanFailed
  | nothingToOrganize
  | classifierFailed
  | previewOnly
  | cancelled
  | executed (success errors : ℕ)
  deriving DecidableEq

/-- `runOrganize`: the chain of early returns, then preview / confirm / execute. -/
def runOrganize (e : OrgEnv) : RunOutcome :=
  if e.argsEmpty then .helpShown
  else if !e.sourceDirExists then .dirMissing
  else if !e.ollamaAvailable then .serviceUnavailable
  else if !e.modelInstalled then .modelMissing
  else if !e.scanOk then .scanFailed
  else if e.fileCount = 0 then .nothingToOrganize
  else if !e.classifierOk then .classifierFailed
  else if e.dryRun then .previewOnly
  else if !e.confirmed then .cancelled
  else .executed e.moveSuccess e.moveErrors

/-- `cmd.Execute` as called by `main`: a cobra parse failure (`none`) exits with
code 1 before `runOrganize` runs; otherwise `runOrganize` runs to completion and
the process exits 0. -/
def filoExecute : Option OrgEnv → ℕ × Option RunOutcome
  | none => (1, none)
  | some e => (0, some (runOrganize e))

/-- C6 amended: the process exit code is 1 exactly when cobra fails to parse the
command line, and 0 in every other case — including a missing source directory,
an unavailable Ollama service, a missing model, and an execute pass with failed
moves; no run exits with code 2. -/
theorem exit_code_parse_failure_only (p : Option OrgEnv) (e : OrgEnv) :
    (filoExecute (some e)).1 = 0 ∧
    (filoExecute none).1 = 1 ∧
    ((filoExecute p).1 = 1 ↔ p = none) ∧
    (filoExecute p).1 ≠ 2 := by
  refine ⟨rfl, rfl, ?_, ?_⟩
  · cases p with
    | none => simp [filoExecute]
    | some e' => simp [filoExecute]
  · cases p with
    | none => simp [filoExecute]
    | some e' => simp [filoExecute]

/-- C6 counterexample environment: the source directory is missing (an
environment error, claimed exit code 1). -/
def cx6EnvDir : OrgEnv := ⟨false, false, true, true, true, 1, true, false, true, 0, 0⟩

/-- C6 counterexample environment: execution proceeds and two file moves fail
(a partial failure, claimed exit code 2). -/
def cx6EnvExec : OrgEnv := ⟨false, true, true, true, true, 3, true, false, true, 1, 2⟩

/-- C6 counterexample: with a missing source directory the run ends on the
`dirMissing` early return and the process exits 0, not 1; with two failed moves
during execute the run ends on `executed 1 2` and the process still exits 0,
not 2. -/
theorem exit_code_counterexample :
    runOrganize cx6EnvDir = .dirMissing ∧
    (filoExecute (some cx6EnvDir)).1 = 0 ∧ (filoExecute (some cx6EnvDir)).1 ≠ 1 ∧
    runOrganize cx6EnvExec = .executed 1 2 ∧
    (filoExecute (some cx6EnvExec)).1 = 0 ∧ (filoExecute (some cx6EnvExec)).1 ≠ 2 := by
  refine ⟨rfl, rfl, by decide, rfl, rfl, by decide⟩

end Filo
